import Mathlib

/-!
Verification of the section-processing core of the repository
(`src/python/src/handlers/data_ingestion_processor/section_processor.py`).

The Python code is shallowly embedded below: strings are Lean `String`s
(manipulated through their `List Char` data), Python `int` arithmetic that can
go negative uses `Int`, and code paths that raise exceptions return
`Except String`, with the error tag naming the exception
(`"NoSectionsFound"`, `"LineTooLong"` for the `ValueError` of `split`,
`"AttributeError"` for attribute access on `None`).

Scope notes on character classes: the documents this code processes are
ASCII text, and the embedding fixes `\s` / `str.split()` whitespace,
`\d`, `str.isupper` to their ASCII meaning.
-/

set_option maxRecDepth 100000

/-- Python whitespace (ASCII range): the characters matched by the regex
class `\s` and by the default `str.split()`. -/
def isPySpace (c : Char) : Bool :=
  c = ' ' || c = '\t' || c = '\n' || c = '\r' || c = '\x0b' || c = '\x0c'

/-- Word-count automaton over a character list: counts maximal runs of
non-whitespace characters.  `b` records whether we are currently inside a
word (used when counting a suffix).  `countWordsAux false s` is exactly
`len(s.split())` in Python. -/
def countWordsAux (b : Bool) : List Char → Nat
  | [] => 0
  | c :: rest =>
    if isPySpace c then countWordsAux false rest
    else (if b then 0 else 1) + countWordsAux true rest

/-- Word count of a character list, Python `len(text.split())`. -/
def wcL (l : List Char) : Nat := countWordsAux false l

/-- Embeds `SectionedDocumentParser.word_count`: `len(text.split())`. -/
def word_count (s : String) : Nat := wcL s.data

/-- Whether a scanner that was inside a word iff `b` is inside a word after
reading `l` (i.e. whether the last character of `l` is non-whitespace). -/
def inWordAfter (b : Bool) : List Char → Bool
  | [] => b
  | c :: rest => inWordAfter (!(isPySpace c)) rest

theorem countWordsAux_append (b : Bool) (x y : List Char) :
    countWordsAux b (x ++ y) = countWordsAux b x + countWordsAux (inWordAfter b x) y := by
  induction x generalizing b with
  | nil => simp [countWordsAux, inWordAfter]
  | cons c rest ih =>
    simp only [List.cons_append, countWordsAux, inWordAfter]
    by_cases h : isPySpace c
    · simp [h, ih false]
    · simp [h, ih true, Nat.add_assoc]

theorem countWordsAux_newline_cons (b : Bool) (y : List Char) :
    countWordsAux b ('\n' :: y) = countWordsAux false y := by
  simp [countWordsAux, isPySpace]

/-- Splitting on a separator char then counting words of each part sums to
the word count of the whole, provided the separator is whitespace. -/
theorem countWordsAux_sep_append (b : Bool) (x y : List Char) :
    countWordsAux b (x ++ '\n' :: y) = countWordsAux b x + countWordsAux false y := by
  rw [countWordsAux_append, countWordsAux_newline_cons]

/-- Python `s.split(sep)` for a single-character separator: keeps empty
pieces, never returns the empty list. -/
def pySplitChar (sep : Char) : List Char → List (List Char)
  | [] => [[]]
  | c :: rest =>
    if c = sep then [] :: pySplitChar sep rest
    else
      match pySplitChar sep rest with
      | l :: ls => (c :: l) :: ls
      | [] => [[c]]

theorem pySplitChar_ne_nil (sep : Char) (s : List Char) : pySplitChar sep s ≠ [] := by
  induction s with
  | nil => simp [pySplitChar]
  | cons c rest ih =>
    simp only [pySplitChar]
    by_cases h : c = sep
    · simp [h]
    · simp only [h, if_neg]
      cases hsp : pySplitChar sep rest with
      | nil => simp
      | cons l ls => simp

/-- The word count of a string equals the head part's count plus the counts
of the remaining parts of its newline split. -/
theorem countWordsAux_splitNl (s : List Char) (b : Bool) :
    countWordsAux b s =
      countWordsAux b ((pySplitChar '\n' s).headD []) +
        (((pySplitChar '\n' s).tail).map wcL).sum := by
  induction s generalizing b with
  | nil => simp [pySplitChar, countWordsAux]
  | cons c rest ih =>
    by_cases h : c = '\n'
    · subst h
      simp only [pySplitChar, if_pos rfl, List.headD, List.tail]
      rw [countWordsAux_newline_cons]
      cases hsp : pySplitChar '\n' rest with
      | nil => exact absurd hsp (pySplitChar_ne_nil _ _)
      | cons l ls =>
        have := ih (b := false)
        rw [hsp] at this
        simp only [List.headD, List.tail] at this
        simp [this, wcL, countWordsAux]
    · simp only [pySplitChar, if_neg h]
      cases hsp : pySplitChar '\n' rest with
      | nil => exact absurd hsp (pySplitChar_ne_nil _ _)
      | cons l ls =>
        simp only [List.headD, List.tail]
        have hb := ih (b := b)
        have htrue := ih (b := true)
        have hfalse := ih (b := false)
        rw [hsp] at hb htrue hfalse
        simp only [List.headD, List.tail] at hb htrue hfalse
        simp only [countWordsAux]
        by_cases hws : isPySpace c
        · simp [hws, hfalse]
        · simp [hws, htrue, Nat.add_assoc]

/-- Decimal digits of a natural number, most significant first; embeds the
rendering of a Python `int` inside an f-string such as `f"part {k+1}/{n}"`. -/
def natDigitsAux : Nat → Nat → List Char → List Char
  | 0, _, acc => acc
  | fuel + 1, n, acc =>
    let c := Char.ofNat (48 + n % 10)
    if n < 10 then c :: acc else natDigitsAux fuel (n / 10) (c :: acc)

def natDigits (n : Nat) : List Char := natDigitsAux (n + 1) n []

theorem digitChar_not_space : ∀ m, m < 10 → isPySpace (Char.ofNat (48 + m)) = false := by
  decide

theorem natDigitsAux_not_space (fuel n : Nat) (acc : List Char)
    (hacc : ∀ c ∈ acc, isPySpace c = false) :
    ∀ c ∈ natDigitsAux fuel n acc, isPySpace c = false := by
  induction fuel generalizing n acc with
  | zero => simpa [natDigitsAux] using hacc
  | succ fuel ih =>
    simp only [natDigitsAux]
    by_cases h : n < 10
    · simp only [if_pos h]
      intro c hc
      rcases List.mem_cons.mp hc with hc | hc
      · subst hc; exact digitChar_not_space _ (Nat.mod_lt _ (by norm_num))
      · exact hacc c hc
    · simp only [if_neg h]
      refine ih _ _ ?_
      intro c hc
      rcases List.mem_cons.mp hc with hc | hc
      · subst hc; exact digitChar_not_space _ (Nat.mod_lt _ (by norm_num))
      · exact hacc c hc

theorem natDigitsAux_ne_nil (fuel n : Nat) (acc : List Char) (h : fuel ≥ 1 ∨ acc ≠ []) :
    natDigitsAux fuel n acc ≠ [] := by
  induction fuel generalizing n acc with
  | zero =>
    rcases h with h | h
    · omega
    · simpa [natDigitsAux] using h
  | succ fuel ih =>
    simp only [natDigitsAux]
    by_cases hn : n < 10
    · simp [hn]
    · simp only [if_neg hn]
      exact ih _ _ (Or.inr (by simp))

theorem natDigits_not_space (n : Nat) : ∀ c ∈ natDigits n, isPySpace c = false :=
  natDigitsAux_not_space _ _ _ (by simp)

theorem natDigits_ne_nil (n : Nat) : natDigits n ≠ [] :=
  natDigitsAux_ne_nil _ _ _ (Or.inl (by omega))

/-- Python `s.replace(pat, repl)` over character lists: replaces all
non-overlapping occurrences, scanning left to right (for non-empty `pat`;
an empty `pat` is returned unchanged, a case never exercised here).
Structured with explicit fuel so that it evaluates by reduction; each step
consumes at least one character, so `s.length` fuel always finishes the
scan (`pyReplaceAux_fuel_stable`). -/
def pyReplaceAux (pat repl : List Char) : Nat → List Char → List Char
  | _, [] => []
  | 0, s => s
  | fuel + 1, c :: rest =>
    if pat ≠ [] && pat.isPrefixOf (c :: rest) then
      repl ++ pyReplaceAux pat repl fuel ((c :: rest).drop pat.length)
    else
      c :: pyReplaceAux pat repl fuel rest

def pyReplace (pat repl s : List Char) : List Char := pyReplaceAux pat repl s.length s

theorem pyReplaceAux_fuel_stable (pat repl : List Char) :
    ∀ n s, s.length ≤ n → ∀ fuel, s.length ≤ fuel →
      pyReplaceAux pat repl fuel s = pyReplaceAux pat repl s.length s := by
  intro n
  induction n with
  | zero =>
    intro s hs fuel hfuel
    have : s = [] := List.length_eq_zero.mp (Nat.le_zero.mp hs)
    subst this
    cases fuel <;> rfl
  | succ n ih =>
    intro s hs fuel hfuel
    cases s with
    | nil => cases fuel <;> rfl
    | cons c rest =>
      simp only [List.length_cons] at hs hfuel
      cases fuel with
      | zero => omega
      | succ f =>
        simp only [pyReplaceAux, List.length_cons]
        by_cases hpre : pat ≠ [] && pat.isPrefixOf (c :: rest)
        · simp only [hpre, if_pos]
          have hpat_ne : pat ≠ [] := by
            have := (Bool.and_eq_true _ _ |>.mp hpre).1
            simpa using this
          have hpl : 1 ≤ pat.length := List.length_pos.mpr hpat_ne
          have hdl : ((c :: rest).drop pat.length).length ≤ n := by
            rw [List.length_drop]
            simp only [List.length_cons]
            omega
          rw [ih _ hdl f (by rw [List.length_drop] at hdl ⊢; simp only [List.length_cons] at *; omega),
            ih _ hdl rest.length (by rw [List.length_drop] at hdl ⊢; simp only [List.length_cons] at *; omega)]
        · simp only [hpre, if_neg, Bool.not_eq_true]
          rw [ih rest (by omega) f (by omega), ih rest (by omega) rest.length le_rfl]

/-- A word-shape-preserving replacement does not change word counts:
if `pat` and `repl` have the same word count and leave the scanner in the
same state for every incoming state, then replacing preserves the word
count of every string, from every scanner state. -/
theorem countWordsAux_pyReplaceAux (pat repl : List Char)
    (hcw : ∀ b, countWordsAux b pat = countWordsAux b repl)
    (hiw : ∀ b, inWordAfter b pat = inWordAfter b repl) :
    ∀ fuel s b, countWordsAux b (pyReplaceAux pat repl fuel s) = countWordsAux b s := by
  intro fuel
  induction fuel with
  | zero => intro s b; cases s <;> rfl
  | succ fuel ih =>
    intro s b
    match s with
    | [] => rfl
    | c :: rest =>
      rw [pyReplaceAux]
      by_cases hpre : pat ≠ [] && pat.isPrefixOf (c :: rest)
      · simp only [hpre, if_pos]
        have hp : pat <+: (c :: rest) :=
          List.isPrefixOf_iff_prefix.mp (Bool.and_eq_true _ _ |>.mp hpre).2
        obtain ⟨t, ht⟩ := hp
        have hdrop : (c :: rest).drop pat.length = t := by
          rw [← ht, List.drop_left]
        rw [hdrop]
        rw [countWordsAux_append, ← hcw b, ← hiw b, ih t (inWordAfter b pat), ← ht,
          countWordsAux_append]
      · simp only [hpre, if_neg, Bool.not_eq_true]
        simp only [countWordsAux]
        by_cases hws : isPySpace c
        · simp [hws, ih rest false]
        · simp [hws, ih rest true]

theorem countWordsAux_pyReplace (pat repl : List Char)
    (hcw : ∀ b, countWordsAux b pat = countWordsAux b repl)
    (hiw : ∀ b, inWordAfter b pat = inWordAfter b repl) :
    ∀ s b, countWordsAux b (pyReplace pat repl s) = countWordsAux b s :=
  fun s => countWordsAux_pyReplaceAux pat repl hcw hiw s.length s

/-- A non-empty run of non-whitespace characters counts as one word when the
scanner is outside a word and zero when inside, and leaves the scanner
inside a word. -/
theorem countWordsAux_nonspace_run (l : List Char) (hne : l ≠ [])
    (h : ∀ c ∈ l, isPySpace c = false) (b : Bool) :
    countWordsAux b l = (if b then 0 else 1) ∧ inWordAfter b l = true := by
  induction l generalizing b with
  | nil => exact absurd rfl hne
  | cons c rest ih =>
    have hc : isPySpace c = false := h c (by simp)
    by_cases hrest : rest = []
    · subst hrest
      simp [countWordsAux, inWordAfter, hc]
    · have hr : ∀ x ∈ rest, isPySpace x = false := fun x hx => h x (by simp [hx])
      obtain ⟨h1, h2⟩ := ih hrest hr true
      constructor
      · simp [countWordsAux, hc, h1]
      · simp [inWordAfter, hc, h2]

/-!  Dotted identifiers (`DottedSection`).  `numbering_regex = r"\d+(\.\d+)*"`,
applied with `re.match`, i.e. anchored at the start of the title. -/

/-- ASCII digit test (regex `\d` on the ASCII documents in scope). -/
def isPyDigit (c : Char) : Bool := '0' ≤ c && c ≤ '9'

theorem length_dropWhile_le (p : Char → Bool) (l : List Char) :
    (l.dropWhile p).length ≤ l.length := by
  induction l with
  | nil => simp
  | cons x xs ihx =>
    by_cases hx : p x
    · simp only [List.dropWhile_cons, hx, if_pos, List.length_cons]
      omega
    · simp [List.dropWhile_cons, hx]

/-- Matcher for the greedy regex `(\.\d+)*`: consumes repeated groups of a
dot followed by at least one digit; returns consumed characters and rest.
Each group consumes at least two characters, so `s.length` fuel always
finishes the loop. -/
def dotGroupsAux : Nat → List Char → List Char × List Char
  | 0, s => ([], s)
  | fuel + 1, s =>
    match s with
    | c :: rest =>
      if c = '.' then
        if rest.takeWhile isPyDigit = [] then ([], c :: rest)
        else
          let p := dotGroupsAux fuel (rest.dropWhile isPyDigit)
          (c :: rest.takeWhile isPyDigit ++ p.1, p.2)
      else ([], c :: rest)
    | [] => ([], s)

def dotGroups (s : List Char) : List Char × List Char := dotGroupsAux s.length s

theorem dotGroupsAux_sound :
    ∀ fuel s, (dotGroupsAux fuel s).1 ++ (dotGroupsAux fuel s).2 = s := by
  intro fuel
  induction fuel with
  | zero => intro s; rfl
  | succ fuel ih =>
    intro s
    cases s with
    | nil => rfl
    | cons c rest =>
      by_cases hc : c = '.'
      · by_cases hd : rest.takeWhile isPyDigit = []
        · simp [dotGroupsAux, hc, hd]
        · have hstep : dotGroupsAux (fuel + 1) (c :: rest) =
              (c :: rest.takeWhile isPyDigit ++
                (dotGroupsAux fuel (rest.dropWhile isPyDigit)).1,
               (dotGroupsAux fuel (rest.dropWhile isPyDigit)).2) := by
            simp [dotGroupsAux, hc, hd]
          rw [hstep]
          dsimp only
          rw [List.append_assoc, ih]
          exact congrArg (fun t => c :: t) (List.takeWhile_append_dropWhile isPyDigit rest)
      · simp [dotGroupsAux, hc]

theorem dotGroups_sound (s : List Char) : (dotGroups s).1 ++ (dotGroups s).2 = s :=
  dotGroupsAux_sound s.length s

theorem dotGroupsAux_fuel_stable :
    ∀ n s, s.length ≤ n → ∀ fuel, s.length ≤ fuel →
      dotGroupsAux fuel s = dotGroupsAux s.length s := by
  intro n
  induction n with
  | zero =>
    intro s hs fuel hfuel
    have : s = [] := List.length_eq_zero.mp (Nat.le_zero.mp hs)
    subst this
    cases fuel <;> rfl
  | succ n ih =>
    intro s hs fuel hfuel
    cases s with
    | nil => cases fuel <;> rfl
    | cons c rest =>
      simp only [List.length_cons] at hs hfuel
      cases fuel with
      | zero => omega
      | succ f =>
        by_cases hc : c = '.'
        · by_cases hd : rest.takeWhile isPyDigit = []
          · simp [dotGroupsAux, hc, hd]
          · have hstep : ∀ ff, dotGroupsAux (ff + 1) (c :: rest) =
                (c :: rest.takeWhile isPyDigit ++
                  (dotGroupsAux ff (rest.dropWhile isPyDigit)).1,
                 (dotGroupsAux ff (rest.dropWhile isPyDigit)).2) := by
              intro ff
              simp [dotGroupsAux, hc, hd]
            have hsplit := List.takeWhile_append_dropWhile isPyDigit rest
            have htl : 1 ≤ (rest.takeWhile isPyDigit).length := List.length_pos.mpr hd
            have hlen : (rest.takeWhile isPyDigit).length +
                (rest.dropWhile isPyDigit).length = rest.length := by
              rw [← List.length_append, hsplit]
            have hdl : (rest.dropWhile isPyDigit).length ≤ n := by omega
            simp only [List.length_cons]
            rw [hstep f, hstep rest.length,
              ih _ hdl f (by omega), ih _ hdl rest.length (by omega)]
        · simp [dotGroupsAux, hc]

/-- Matcher for the anchored regex `\d+(\.\d+)*` (`re.match` with
`numbering_regex`): the matched prefix and the rest, or `none`. -/
def matchNumber (s : List Char) : Option (List Char × List Char) :=
  match s.span isPyDigit with
  | ([], _) => none
  | (d :: ds, r) =>
    let (m, rr) := dotGroups r
    some ((d :: ds) ++ m, rr)

/-- Embeds `DottedSection.number`: the matched numbering prefix of the title
(`re.match(numbering_regex, title).group(0)`); `""` stands for the `None`
match on which Python would raise, a case outside every claim's scope. -/
def numberOf (title : String) : Option String :=
  (matchNumber title.data).map (fun p => String.mk p.1)

def numberOfD (title : String) : String := (numberOf title).getD ""

/-- Numeric value of a digit run (Python `int` on a component). -/
def digitsToNat (l : List Char) : Nat :=
  l.foldl (fun acc c => acc * 10 + (c.toNat - 48)) 0

/-- Embeds `list(map(int, self.number.split('.')))`: the identifier's
component sequence ( `[]` when the title has no numbering prefix, where
Python would raise instead). -/
def parseDottedD (title : String) : List Nat :=
  match matchNumber title.data with
  | none => []
  | some (num, _) => (pySplitChar '.' num).map digitsToNat

/-- Embeds `DottedSection.__eq__`: string equality of the numbering
prefixes (`self.number == other.number`). -/
def dsEq (a b : String) : Bool := numberOfD a == numberOfD b

/-- Comparison key of `packaging.version.Version` for a pure release
version string: the integer components with trailing zeros stripped. -/
def verKey (l : List Nat) : List Nat := (l.reverse.dropWhile (· = 0)).reverse

/-- Python tuple `<` on integer sequences (lexicographic, a strict prefix is
smaller). -/
def natListLt : List Nat → List Nat → Bool
  | [], [] => false
  | [], _ :: _ => true
  | _ :: _, [] => false
  | a :: as, b :: bs => a < b || (a = b && natListLt as bs)

/-- Embeds `DottedSection.__lt__`:
`Version(self.number) < Version(other.number)`. -/
def dsLt (a b : String) : Bool :=
  natListLt (verKey (parseDottedD a)) (verKey (parseDottedD b))

/-- Embeds `DottedSection.is_child_of`:
`other_numbering == self_numbering[:len(other_numbering)] and self != other`
(where `!=` is the negation of the string `__eq__` above). -/
def is_child_of (selfT otherT : String) : Bool :=
  let sn := parseDottedD selfT
  let onb := parseDottedD otherT
  (onb == sn.take onb.length) && !(numberOfD selfT == numberOfD otherT)

/-- Embeds `DottedSection.is_right_sibling_of`:
`other_numbering[:-1] == self_numbering[:-1] and other_numbering[-1] < self_numbering[-1]`. -/
def is_right_sibling_of (selfT otherT : String) : Bool :=
  let sn := parseDottedD selfT
  let onb := parseDottedD otherT
  (onb.dropLast == sn.dropLast) && decide (onb.getLastD 0 < sn.getLastD 0)

/-!  Title extraction.  `section_regex` is
`^\s+(\d+(\.\d+)*\s[A-Z(][a-zA-Z0-9)/+-]*(\s([A-Z(][a-zA-Z0-9)/+-]*|the|or|and|to|in|on|at|of|for))*)$`
applied with `re.findall(..., re.MULTILINE)`.  The matcher below is a
direct implementation of this one regex with Python's leftmost,
greedy-with-backtracking semantics: `\s+`, `\d+`, `(\.\d+)*` and the word
character runs are maximal-munch (no shorter match can ever satisfy the
required follow character, as each fails on the character class of the
follow position), the `(word|stopword)` alternation is deterministic
(stopwords are lower-case, word atoms start with `[A-Z(]`, and no stopword
is a prefix of another), and the only true backtracking point is how many
`(\s(word|stopword))` iterations are kept before `$`, which Python resolves
to the largest count whose end position is end-of-string or a `\n`. -/

def isUpperAlpha (c : Char) : Bool := 'A' ≤ c && c ≤ 'Z'

def isLowerAlpha (c : Char) : Bool := 'a' ≤ c && c ≤ 'z'

/-- First character of a title word: `[A-Z(]`. -/
def isWordStart (c : Char) : Bool := isUpperAlpha c || c = '('

/-- Continuation character of a title word: `[a-zA-Z0-9)/+-]`. -/
def isWordChar (c : Char) : Bool :=
  isLowerAlpha c || isUpperAlpha c || isPyDigit c || c = ')' || c = '/' || c = '+' || c = '-'

/-- `DottedSection.stopwords`. -/
def stopwords : List (List Char) :=
  (["the", "or", "and", "to", "in", "on", "at", "of", "for"].map String.data)

/-- One `\s[A-Z(][a-zA-Z0-9)/+-]*` atom (the required first title word). -/
def matchFirstWord : List Char → Option (List Char × List Char)
  | c :: c2 :: rest =>
    if isPySpace c && isWordStart c2 then
      let (w, r) := rest.span isWordChar
      some (c :: c2 :: w, r)
    else none
  | _ => none

def matchStopwordIn : List (List Char) → List Char → Option (List Char × List Char)
  | [], _ => none
  | sw :: sws, s =>
    if sw.isPrefixOf s then some (sw, s.drop sw.length)
    else matchStopwordIn sws s

/-- One `\s([A-Z(][a-zA-Z0-9)/+-]*|the|or|...|for)` iteration. -/
def iterStep : List Char → Option (List Char × List Char)
  | [] => none
  | c :: rest =>
    if isPySpace c then
      match rest with
      | [] => none
      | c2 :: rest2 =>
        if isWordStart c2 then
          let (w, r) := rest2.span isWordChar
          some (c :: c2 :: w, r)
        else
          match matchStopwordIn stopwords rest with
          | some (t, r) => some (c :: t, r)
          | none => none
    else none

theorem matchStopwordIn_sound (l : List (List Char)) (hl : ∀ sw ∈ l, sw ≠ [])
    (s t r : List Char) (h : matchStopwordIn l s = some (t, r)) :
    t ++ r = s ∧ t ≠ [] := by
  induction l with
  | nil => simp [matchStopwordIn] at h
  | cons sw sws ih =>
    simp only [matchStopwordIn] at h
    by_cases hp : sw.isPrefixOf s
    · simp only [hp, if_pos] at h
      obtain ⟨h1, h2⟩ := Prod.mk.injEq _ _ _ _ |>.mp (Option.some.injEq _ _ |>.mp h)
      subst h1
      subst h2
      obtain ⟨u, hu⟩ := List.isPrefixOf_iff_prefix.mp hp
      constructor
      · rw [← hu, List.drop_left]
      · exact hl sw (by simp)
    · simp only [hp, if_neg, Bool.false_eq_true, not_false_iff] at h
      exact ih (fun x hx => hl x (by simp [hx])) h

theorem iterStep_sound (s t r : List Char) (h : iterStep s = some (t, r)) :
    t ++ r = s ∧ t ≠ [] := by
  match s with
  | [] => simp [iterStep] at h
  | c :: rest =>
    simp only [iterStep] at h
    by_cases hws : isPySpace c
    · simp only [hws, if_pos] at h
      match rest with
      | [] => simp at h
      | c2 :: rest2 =>
        by_cases hst : isWordStart c2
        · simp only [hst, if_pos] at h
          obtain ⟨h1, h2⟩ := Prod.mk.injEq _ _ _ _ |>.mp (Option.some.injEq _ _ |>.mp h)
          subst h1
          subst h2
          refine ⟨?_, by simp⟩
          rw [List.span_eq_take_drop]
          simp [List.takeWhile_append_dropWhile]
        · simp only [hst, if_neg, Bool.false_eq_true, not_false_iff] at h
          match hms : matchStopwordIn stopwords (c2 :: rest2) with
          | none => rw [hms] at h; simp at h
          | some (t0, r0) =>
            rw [hms] at h
            obtain ⟨h1, h2⟩ := Prod.mk.injEq _ _ _ _ |>.mp (Option.some.injEq _ _ |>.mp h)
            subst h1
            subst h2
            have hsw : ∀ sw ∈ stopwords, sw ≠ [] := by decide
            obtain ⟨ha, hb⟩ := matchStopwordIn_sound _ hsw _ _ _ hms
            exact ⟨by simp [ha], by simp⟩
    · simp [hws] at h

theorem iterStep_shrinks (s t r : List Char) (h : iterStep s = some (t, r)) :
    r.length < s.length := by
  obtain ⟨ha, hb⟩ := iterStep_sound s t r h
  have : t.length + r.length = s.length := by rw [← ha, List.length_append]
  have : 1 ≤ t.length := List.length_pos.mpr hb
  omega

/-- All end positions reachable by stacking further `(\s(word|stopword))`
iterations after a given point: for each count `m ≥ 1`, the pair of the
characters consumed by the `m` iterations and the remaining suffix. -/
def iterBoundariesAux : Nat → List Char → List (List Char × List Char)
  | 0, _ => []
  | fuel + 1, s =>
    match iterStep s with
    | none => []
    | some (t, r) => (t, r) :: (iterBoundariesAux fuel r).map (fun p => (t ++ p.1, p.2))

def iterBoundaries (s : List Char) : List (List Char × List Char) :=
  iterBoundariesAux s.length s

theorem iterBoundariesAux_fuel_stable :
    ∀ n s, s.length ≤ n → ∀ fuel, s.length ≤ fuel →
      iterBoundariesAux fuel s = iterBoundariesAux s.length s := by
  intro n
  induction n with
  | zero =>
    intro s hs fuel hfuel
    have : s = [] := List.length_eq_zero.mp (Nat.le_zero.mp hs)
    subst this
    cases fuel with
    | zero => rfl
    | succ f =>
      simp only [iterBoundariesAux]
      rfl
  | succ n ih =>
    intro s hs fuel hfuel
    match hstep : iterStep s with
    | none =>
      have hnone : ∀ ff, iterBoundariesAux ff s = [] := by
        intro ff
        cases ff with
        | zero => rfl
        | succ ff =>
          simp only [iterBoundariesAux]
          rw [hstep]
      rw [hnone, hnone]
    | some p =>
      obtain ⟨t, r⟩ := p
      have hshr := iterStep_shrinks s t r hstep
      have hsome : ∀ ff, iterBoundariesAux (ff + 1) s =
          (t, r) :: (iterBoundariesAux ff r).map (fun p => (t ++ p.1, p.2)) := by
        intro ff
        simp only [iterBoundariesAux]
        rw [hstep]
      cases fuel with
      | zero => omega
      | succ f =>
        cases hlen : s.length with
        | zero => omega
        | succ m =>
          have hr : r.length ≤ n := by omega
          rw [hsome f, hsome m, ih r hr f (by omega), ih r hr m (by omega)]

/-- Can `$` (with `re.MULTILINE`) match here? -/
def okBoundary : List Char → Bool
  | [] => true
  | c :: _ => c = '\n'

/-- The last (i.e. highest-iteration-count) acceptable end position, which is
the one the greedy `(...)*` loop settles on after backtracking for `$`. -/
def lastOk : List (List Char × List Char) → Option (List Char × List Char)
  | [] => none
  | x :: xs =>
    match lastOk xs with
    | some y => some y
    | none => if okBoundary x.2 then some x else none

theorem matchNumber_sound (s num r : List Char) (h : matchNumber s = some (num, r)) :
    num ++ r = s ∧ ∃ d ds, num = d :: ds ∧ isPyDigit d = true := by
  simp only [matchNumber] at h
  match hsp : List.span isPyDigit s with
  | ([], r0) => rw [hsp] at h; simp at h
  | (d :: ds, r0) =>
    rw [hsp] at h
    simp only at h
    obtain ⟨h1, h2⟩ := Prod.mk.injEq _ _ _ _ |>.mp (Option.some.injEq _ _ |>.mp h)
    have hspan := hsp
    rw [List.span_eq_take_drop] at hspan
    obtain ⟨ht, hdr⟩ := Prod.mk.injEq _ _ _ _ |>.mp hspan
    have hdg := dotGroups_sound r0
    constructor
    · rw [← h1, ← h2]
      simp only [List.cons_append, List.append_assoc]
      rw [hdg, ← List.cons_append]
      rw [← ht, ← hdr]
      exact List.takeWhile_append_dropWhile isPyDigit s
    · refine ⟨d, ds ++ (dotGroups r0).1, by simp [← h1], ?_⟩
      have hmem : d ∈ List.takeWhile isPyDigit s := by rw [ht]; simp
      exact List.mem_takeWhile_imp hmem

theorem matchFirstWord_sound (s t r : List Char) (h : matchFirstWord s = some (t, r)) :
    t ++ r = s := by
  match s with
  | [] => simp [matchFirstWord] at h
  | [c] => simp [matchFirstWord] at h
  | c :: c2 :: rest =>
    simp only [matchFirstWord] at h
    by_cases hcc : isPySpace c && isWordStart c2
    · simp only [hcc, if_pos] at h
      obtain ⟨h1, h2⟩ := Prod.mk.injEq _ _ _ _ |>.mp (Option.some.injEq _ _ |>.mp h)
      subst h1
      subst h2
      rw [List.span_eq_take_drop]
      simp [List.takeWhile_append_dropWhile]
    · simp [hcc] at h

theorem iterBoundariesAux_sound :
    ∀ fuel s, ∀ p ∈ iterBoundariesAux fuel s, p.1 ++ p.2 = s ∧ p.1 ≠ [] := by
  intro fuel
  induction fuel with
  | zero => intro s p hp; simp [iterBoundariesAux] at hp
  | succ fuel ih =>
    intro s p hp
    simp only [iterBoundariesAux] at hp
    match hstep : iterStep s with
    | none => rw [hstep] at hp; simp at hp
    | some (t, r) =>
      rw [hstep] at hp
      obtain ⟨ha, hb⟩ := iterStep_sound s t r hstep
      rcases List.mem_cons.mp hp with hp | hp
      · subst hp
        exact ⟨ha, hb⟩
      · obtain ⟨q, hq, hqe⟩ := List.mem_map.mp hp
        obtain ⟨hq1, hq2⟩ := ih r q hq
        subst hqe
        constructor
        · simp only [List.append_assoc, hq1, ha]
        · simp [hb]

theorem iterBoundaries_sound : ∀ s, ∀ p ∈ iterBoundaries s, p.1 ++ p.2 = s ∧ p.1 ≠ [] :=
  fun s => iterBoundariesAux_sound s.length s

theorem lastOk_mem (l : List (List Char × List Char)) (p : List Char × List Char)
    (h : lastOk l = some p) : p ∈ l := by
  induction l with
  | nil => simp [lastOk] at h
  | cons x xs ih =>
    simp only [lastOk] at h
    match hrec : lastOk xs with
    | some y =>
      rw [hrec] at h
      simp only [Option.some.injEq] at h
      subst h
      exact List.mem_cons_of_mem _ (ih hrec)
    | none =>
      rw [hrec] at h
      by_cases hok : okBoundary x.2
      · simp only [hok, if_pos, Option.some.injEq] at h
        subst h
        exact List.mem_cons_self _ _
      · simp [hok] at h

/-- One anchored attempt of `section_regex` at a `^` position: returns the
group-1 text (`groups[0]` in `re.findall`) and the rest of the input after
the whole match. -/
def tryMatch (s : List Char) : Option (List Char × List Char) :=
  match s.span isPySpace with
  | ([], _) => none
  | (_ :: _, r1) =>
    match matchNumber r1 with
    | none => none
    | some (num, r2) =>
      match matchFirstWord r2 with
      | none => none
      | some (fw, r3) =>
        match lastOk (([], r3) :: iterBoundaries r3) with
        | none => none
        | some (extra, rest) => some (num ++ fw ++ extra, rest)

theorem tryMatch_sound (s g r : List Char) (h : tryMatch s = some (g, r)) :
    r.length < s.length ∧ ∃ d ds, g = d :: ds ∧ isPyDigit d = true := by
  simp only [tryMatch] at h
  match hsp : List.span isPySpace s with
  | ([], r1) => rw [hsp] at h; simp at h
  | (w :: ws, r1) =>
    rw [hsp] at h
    simp only at h
    have hspan := hsp
    rw [List.span_eq_take_drop] at hspan
    obtain ⟨htw, hdw⟩ := Prod.mk.injEq _ _ _ _ |>.mp hspan
    have hs_split : (w :: ws) ++ r1 = s := by
      rw [← htw, ← hdw]
      exact List.takeWhile_append_dropWhile isPySpace s
    match hmn : matchNumber r1 with
    | none => rw [hmn] at h; simp at h
    | some (num, r2) =>
      rw [hmn] at h
      simp only at h
      obtain ⟨hnum_app, d, ds, hnum_shape, hdig⟩ := matchNumber_sound _ _ _ hmn
      match hfw : matchFirstWord r2 with
      | none => rw [hfw] at h; simp at h
      | some (fw, r3) =>
        rw [hfw] at h
        simp only at h
        have hfw_app := matchFirstWord_sound _ _ _ hfw
        match hlo : lastOk (([], r3) :: iterBoundaries r3) with
        | none => rw [hlo] at h; simp at h
        | some (extra, rest) =>
          rw [hlo] at h
          simp only at h
          obtain ⟨h1, h2⟩ := Prod.mk.injEq _ _ _ _ |>.mp (Option.some.injEq _ _ |>.mp h)
          have hbnd : extra ++ rest = r3 := by
            have hm := lastOk_mem _ _ hlo
            rcases List.mem_cons.mp hm with hm | hm
            · obtain ⟨he1, he2⟩ := Prod.mk.injEq _ _ _ _ |>.mp hm
              rw [he1, he2]
              rfl
            · exact (iterBoundaries_sound r3 _ hm).1
          constructor
          · have e1 : rest.length ≤ r3.length := by
              have : extra.length + rest.length = r3.length := by
                rw [← hbnd, List.length_append]
              omega
            have e2 : r3.length ≤ r2.length := by
              have : fw.length + r3.length = r2.length := by
                rw [← hfw_app, List.length_append]
              omega
            have e3 : r2.length ≤ r1.length := by
              have : num.length + r2.length = r1.length := by
                rw [← hnum_app, List.length_append]
              omega
            have e4 : r1.length < s.length := by
              have : (w :: ws).length + r1.length = s.length := by
                rw [← hs_split, List.length_append]
              simp only [List.length_cons] at this
              omega
            subst h2
            omega
          · refine ⟨d, ds ++ (fw ++ extra), ?_, hdig⟩
            rw [← h1, hnum_shape]
            simp

/-- The `re.findall(..., re.MULTILINE)` scan: positions are tried left to
right; a match may only start where `^` holds (`atStart`), i.e. at offset 0
or right after a newline; after a match the scan resumes at the match end
(whose preceding character is a word character, never a newline, so `^`
does not hold there).  Every step consumes at least one character
(`tryMatch_sound`), so `s.length` fuel always finishes the scan
(`findallScan_fuel_stable`). -/
def findallScan : Nat → Bool → List Char → List String
  | 0, _, _ => []
  | _ + 1, _, [] => []
  | fuel + 1, atStart, c :: rest =>
    if atStart then
      match tryMatch (c :: rest) with
      | some (g, r) => String.mk g :: findallScan fuel false r
      | none => findallScan fuel (c = '\n') rest
    else findallScan fuel (c = '\n') rest

theorem findallScan_fuel_stable :
    ∀ n s, s.length ≤ n → ∀ b fuel, s.length ≤ fuel →
      findallScan fuel b s = findallScan s.length b s := by
  intro n
  induction n with
  | zero =>
    intro s hs b fuel hfuel
    have : s = [] := List.length_eq_zero.mp (Nat.le_zero.mp hs)
    subst this
    cases fuel <;> rfl
  | succ n ih =>
    intro s hs b fuel hfuel
    cases s with
    | nil => cases fuel <;> rfl
    | cons c rest =>
      simp only [List.length_cons] at hs hfuel
      cases fuel with
      | zero => omega
      | succ f =>
        simp only [List.length_cons]
        by_cases hb : b
        · subst hb
          match hm : tryMatch (c :: rest) with
          | some (g, r) =>
            have hshr := (tryMatch_sound _ _ _ hm).1
            simp only [List.length_cons] at hshr
            have hr : r.length ≤ n := by omega
            have hsome : ∀ ff, findallScan (ff + 1) true (c :: rest) =
                String.mk g :: findallScan ff false r := by
              intro ff
              simp only [findallScan, if_true]
              rw [hm]
            rw [hsome f, hsome rest.length,
              ih r hr false f (by omega), ih r hr false rest.length (by omega)]
          | none =>
            have hnone : ∀ ff, findallScan (ff + 1) true (c :: rest) =
                findallScan ff (c = '\n') rest := by
              intro ff
              simp only [findallScan, if_true]
              rw [hm]
            rw [hnone f, hnone rest.length,
              ih rest (by omega) (c = '\n') f (by omega),
              ih rest (by omega) (c = '\n') rest.length le_rfl]
        · have hbf : b = false := by simpa using hb
          subst hbf
          have hskip : ∀ ff, findallScan (ff + 1) false (c :: rest) =
              findallScan ff (c = '\n') rest := by
            intro ff
            simp [findallScan]
          rw [hskip f, hskip rest.length,
            ih rest (by omega) (c = '\n') f (by omega),
            ih rest (by omega) (c = '\n') rest.length le_rfl]

/-- Embeds the `re.findall` call of
`SectionedDocumentParser.extract_sections` (the list of group-1 strings). -/
def extractTitles (text : String) : List String :=
  findallScan text.data.length true text.data

/-- Embeds `SectionedDocumentParser.extract_sections`, which raises
`NoSectionsFound` when the scan produces no title. -/
def extract_sections (text : String) : Except String (List String) :=
  let sections := extractTitles text
  if sections.isEmpty then .error "NoSectionsFound" else .ok sections

/-- Embeds Python `str.isupper` (ASCII): at least one cased character and
no lower-case character. -/
def pyIsUpper (s : String) : Bool :=
  s.data.any (fun c => isUpperAlpha c) && s.data.all (fun c => !(isLowerAlpha c))

/-- Embeds the inner `numbers_are_valid` of `validate_extracted_sections`:
every dot-separated component of the numbering prefix has at most two
digits.  Returns `none` where Python would raise `AttributeError`
(`re.match` returned `None`). -/
def numbersValid (s : String) : Option Bool :=
  (matchNumber s.data).map
    (fun p => (pySplitChar '.' p.1).all (fun comp => comp.length ≤ 2))

/-- Embeds `SectionedDocumentParser.validate_extracted_sections`: drop
all-upper-case titles, then drop titles with a numbering component longer
than two digits (`AttributeError` if a surviving title has no numbering
prefix), and raise `NoSectionsFound` if nothing survives. -/
def validate_extracted_sections (sections : List String) : Except String (List String) :=
  let valid1 := sections.filter (fun s => !(pyIsUpper s))
  if valid1.any (fun s => (numbersValid s).isNone) then .error "AttributeError"
  else
    let valid2 := valid1.filter (fun s => (numbersValid s).getD false)
    if valid2.isEmpty then .error "NoSectionsFound" else .ok valid2

/-- Embeds `sorted(valid_titles, key=lambda x: DottedSection(x))`: a stable
sort whose strict order is `DottedSection.__lt__`.  Insertion placing an
element before the first entry not below it reproduces Python's stable
Timsort result for this strict weak order. -/
def sortTitles (l : List String) : List String :=
  List.insertionSort (fun a b => dsLt b a = false) l

/-!  The section tree (`build_section_tree`).  Nodes live in an arena
(`List SNode`), and `parent`, `children` and `right_sibling` hold arena
indices; the root is index 0.  Every link is created exactly where the
Python code mutates the corresponding attribute. -/

structure SNode where
  title : String
  content : Option String := none
  children : List Nat := []
  right_sibling : Option Nat := none
  parent : Option Nat := none
deriving Repr, DecidableEq, Inhabited

/-- Append `title` as a child of `arena[parentIdx]`
(`current_section.children.append(new_section); new_section.parent = current_section`). -/
def attachChild (arena : List SNode) (parentIdx : Nat) (title : String) : List SNode :=
  let newIdx := arena.length
  let p := arena.getD parentIdx default
  (arena.set parentIdx { p with children := p.children ++ [newIdx] }) ++
    [{ title := title, parent := some parentIdx }]

/-- Append `title` as the right sibling of `arena[leftIdx]`
(`current_section.right_sibling = new_section; new_section.parent = current_section.parent`). -/
def attachSibling (arena : List SNode) (leftIdx : Nat) (title : String) : List SNode :=
  let newIdx := arena.length
  let l := arena.getD leftIdx default
  (arena.set leftIdx { l with right_sibling := some newIdx }) ++
    [{ title := title, parent := l.parent }]

/-- The backtracking loop
`while not (new_section.is_child_of(current_section) or current_section.parent is None): current_section = current_section.parent`.
Parent indices always point to earlier arena slots, so `arena.length` fuel
is enough for the chain to bottom out. -/
def backtrackFrom (arena : List SNode) (title : String) : Nat → Nat → Nat
  | 0, cur => cur
  | fuel + 1, cur =>
    if is_child_of title (arena.getD cur default).title then cur
    else
      match (arena.getD cur default).parent with
      | none => cur
      | some p => backtrackFrom arena title fuel p

/-- One iteration of the `for title in titles[1:]` loop of
`build_section_tree`; the state is the arena plus the cursor
(`current_section`) index.  On the discard path the cursor keeps the value
the backtracking loop left in `current_section`. -/
def buildStep (st : List SNode × Nat) (title : String) : List SNode × Nat :=
  let arena := st.1
  let cur := st.2
  if is_child_of title (arena.getD cur default).title then
    (attachChild arena cur title, arena.length)
  else if is_right_sibling_of title (arena.getD cur default).title then
    (attachSibling arena cur title, arena.length)
  else
    let a := backtrackFrom arena title arena.length cur
    if is_child_of title (arena.getD a default).title then
      (attachChild arena a title, arena.length)
    else if is_right_sibling_of title (arena.getD a default).title then
      (attachSibling arena a title, arena.length)
    else
      (arena, a)

/-- Embeds `SectionedDocumentParser.build_section_tree` (the arena of the
built tree; index 0 is the root).  Python indexes `titles[0]` and would
raise on an empty list; the pipeline only calls it on non-empty lists, and
the embedding returns an empty arena there. -/
def build_section_tree : List String → List SNode
  | [] => []
  | t :: ts => (ts.foldl buildStep ([{ title := t }], 0)).1

/-- Embeds `DottedSection.search` (depth-first: self, then children in
order, then the right sibling).  Child and sibling indices always point to
later arena slots, so `arena.length` fuel covers the recursion depth. -/
def searchAux (arena : List SNode) (t : String) : Nat → Nat → Option Nat
  | 0, _ => none
  | fuel + 1, i =>
    match arena[i]? with
    | none => none
    | some nd =>
      if nd.title = t then some i
      else
        match nd.children.findSome? (fun c => searchAux arena t fuel c) with
        | some r => some r
        | none =>
          match nd.right_sibling with
          | none => none
          | some rs => searchAux arena t fuel rs

def searchArena (arena : List SNode) (t : String) : Option Nat :=
  searchAux arena t arena.length 0

/-- The `while current is not None` walk of `get_contextualised_content`:
titles from the node up to its top-level ancestor. -/
def lineageUp (arena : List SNode) : Nat → Nat → List String
  | 0, _ => []
  | fuel + 1, i =>
    match arena[i]? with
    | none => []
    | some nd =>
      nd.title ::
        (match nd.parent with
         | none => []
         | some p => lineageUp arena fuel p)

/-- Embeds `DottedSection.get_contextualised_content` for node `i` whose
`content` is the string `content`. -/
def get_contextualised_content (arena : List SNode) (i : Nat) (content : String) : String :=
  "In section: " ++ String.intercalate " -> " (lineageUp arena arena.length i).reverse ++
    ", part 1/1:\n" ++ content

/-- Python `str.find`: index of the first occurrence, `-1` if absent. -/
def findSubAux (needle : List Char) : Nat → List Char → Option Nat
  | k, [] => if needle.isPrefixOf ([] : List Char) then some k else none
  | k, c :: rest => if needle.isPrefixOf (c :: rest) then some k else findSubAux needle (k + 1) rest

def pyFind (hay sub : String) : Int :=
  match findSubAux sub.data 0 hay.data with
  | some k => (k : Int)
  | none => -1

/-- Python slice `s[a:b]` with full negative-index and clamping semantics. -/
def pySlice (s : String) (a b : Int) : String :=
  let n : Int := (s.data.length : Int)
  let norm : Int → Nat := fun i =>
    if i < 0 then (if n + i < 0 then 0 else (n + i).toNat)
    else (if i > n then n.toNat else i.toNat)
  String.mk ((s.data.take (norm b)).drop (norm a))

/-- The content-assignment loop of `enrich_section_chunks`:
for each consecutive pair of sorted titles, the text between the first
occurrences of the two titles is written to the node found by `search`
(`AttributeError` if `search` returns `None`). -/
def assignPairs (text : String) : List SNode → List (String × String) → Except String (List SNode)
  | arena, [] => .ok arena
  | arena, (cur, nxt) :: rest =>
    let a := pyFind text cur
    let b := pyFind text nxt
    let chunk := pySlice text a b
    match searchArena arena cur with
    | none => .error "AttributeError"
    | some i =>
      assignPairs text (arena.set i { arena.getD i default with content := some chunk }) rest

/-- The chunk-collection loop of `enrich_section_chunks`: for each sorted
title, look its node up; a node with content contributes its
contextualised content, a node without content is skipped (warning only),
and a failed lookup is an `AttributeError` (`None.content`). -/
def collectChunks (arena : List SNode) : List String → Except String (List String)
  | [] => .ok []
  | t :: ts =>
    match searchArena arena t with
    | none => .error "AttributeError"
    | some i =>
      match (arena.getD i default).content with
      | none => collectChunks arena ts
      | some c =>
        match collectChunks arena ts with
        | .error e => .error e
        | .ok rest => .ok (get_contextualised_content arena i c :: rest)

/-- The pipeline of `enrich_section_chunks` after validation: sort, build
the tree, assign content spans, collect contextualised chunks. -/
def enrichArena (text : String) (validTitles : List String) : Except String (List SNode) :=
  let sorted := sortTitles validTitles
  assignPairs text (build_section_tree sorted) (sorted.zip sorted.tail)

def enrichFromTitles (text : String) (validTitles : List String) : Except String (List String) :=
  match enrichArena text validTitles with
  | .error e => .error e
  | .ok arena => collectChunks arena (sortTitles validTitles)

/-- Embeds `SectionedDocumentParser.enrich_section_chunks`. -/
def enrich_section_chunks (text : String) : Except String (List String) :=
  match extract_sections text with
  | .error e => .error e
  | .ok sections =>
    match validate_extracted_sections sections with
    | .error e => .error e
    | .ok valid => enrichFromTitles text valid

/-!  The splitter (`SectionedDocumentParser.split`).  An oversized chunk is
cut on its newline-separated lines; the inner `while` accumulates lines
while the running word count stays within the adjusted budget, the outer
`while` starts a new sub-chunk per iteration.  Sub-chunks are kept as line
lists and rendered back to the Python string
(`current_chunk += new_line + "\n"`) by `renderGroup`. -/

/-- The inner accumulation loop of `split`: from running count `cl`, take
lines while `cl + word_count(line) <= adjusted_max`; returns the lines
taken and those remaining. -/
def fillChunk (amax : Int) (cl : Int) : List (List Char) → List (List Char) × List (List Char)
  | [] => ([], [])
  | line :: rest =>
    if cl + (wcL line : Int) ≤ amax then
      let p := fillChunk amax (cl + (wcL line : Int)) rest
      (line :: p.1, p.2)
    else ([], line :: rest)

/-- The outer `while len(lines) > 0` loop of `split`, producing the
sub-chunk line groups.  The fuel is the number of remaining lines: when
every line fits the budget each iteration consumes at least one line, so
`lines.length` iterations always finish the list (the fuel can only be
exhausted in the case where the Python loop would not terminate, which the
preceding per-line check rules out). -/
def packChunksAux : Nat → Int → List (List Char) → List (List (List Char))
  | 0, _, _ => []
  | _ + 1, _, [] => []
  | fuel + 1, amax, line :: rest =>
    let p := fillChunk amax 0 (line :: rest)
    p.1 :: packChunksAux fuel amax p.2

/-- Python's `current_chunk` string for a group of lines:
each line followed by a newline. -/
def renderGroup (g : List (List Char)) : List Char := (g.map (fun l => l ++ ['\n'])).flatten

/-- The replaced occurrence `"part 1/1"`. -/
def partPat : List Char := "part 1/1".data

/-- The replacement `f"part {k + 1}/{len(sub_chunks)}"` (with `k + 1`
already applied). -/
def partRepl (k n : Nat) : List Char :=
  "part ".data ++ (natDigits k ++ '/' :: natDigits n)

/-- `lines = chunk.split("\n")` of the splitter. -/
def splitLines (chunk : String) : List (List Char) := pySplitChar '\n' chunk.data

/-- `section_lineage = lines[0]`. -/
def splitHeader (chunk : String) : List Char := (splitLines chunk).headD []

/-- `lines = lines[1:]` (the content lines). -/
def splitBody (chunk : String) : List (List Char) := (splitLines chunk).tail

/-- `adjusted_max_length = self.max_chunk_length - lineage_length`. -/
def adjustedMax (maxLen : Nat) (chunk : String) : Int :=
  (maxLen : Int) - (wcL (splitHeader chunk) : Int)

/-- The `sub_chunks` line groups the two nested `while` loops produce. -/
def splitGroups (maxLen : Nat) (chunk : String) : List (List (List Char)) :=
  packChunksAux (splitBody chunk).length (adjustedMax maxLen chunk) (splitBody chunk)

/-- The body of the `for chunk in chunks` loop of `split` for one enriched
chunk: pass it through unchanged if within budget, otherwise split it into
header-prefixed sub-chunks, or raise the `ValueError` (`LineTooLong`) when
a single line exceeds the adjusted budget. -/
def processChunk (maxLen : Nat) (chunk : String) : Except String (List String) :=
  if word_count chunk ≤ maxLen then .ok [chunk]
  else if (splitBody chunk).any (fun l => adjustedMax maxLen chunk < (wcL l : Int)) then
    .error "LineTooLong"
  else
    .ok ((splitGroups maxLen chunk).enum.map (fun p =>
      String.mk (pyReplace partPat (partRepl (p.1 + 1) (splitGroups maxLen chunk).length)
        (splitHeader chunk) ++ '\n' :: renderGroup p.2)))

/-- The `for chunk in chunks` loop of `split` over all enriched chunks; a
raised error aborts the whole call. -/
def splitChunks (maxLen : Nat) : List String → Except String (List String)
  | [] => .ok []
  | c :: cs =>
    match processChunk maxLen c with
    | .error e => .error e
    | .ok v =>
      match splitChunks maxLen cs with
      | .error e => .error e
      | .ok rest => .ok (v ++ rest)

/-- Embeds `SectionedDocumentParser.split` with `max_chunk_length = maxLen`
(the constructor default is 500). -/
def split (maxLen : Nat) (text : String) : Except String (List String) :=
  match enrich_section_chunks text with
  | .error e => .error e
  | .ok chunks => splitChunks maxLen chunks

/-!  Properties of the inner and outer packing loops. -/

theorem fillChunk_split (amax : Int) (l : List (List Char)) :
    ∀ cl, (fillChunk amax cl l).1 ++ (fillChunk amax cl l).2 = l := by
  induction l with
  | nil => intro cl; simp [fillChunk]
  | cons x xs ih =>
    intro cl
    simp only [fillChunk]
    by_cases h : cl + (wcL x : Int) ≤ amax
    · simp [h, ih]
    · simp [h]

theorem fillChunk_cons_fit (amax : Int) (x : List Char) (xs : List (List Char))
    (h : (wcL x : Int) ≤ amax) :
    fillChunk amax 0 (x :: xs) =
      (x :: (fillChunk amax (0 + (wcL x : Int)) xs).1,
        (fillChunk amax (0 + (wcL x : Int)) xs).2) := by
  have h0 : (0 : Int) + (wcL x : Int) ≤ amax := by omega
  simp [fillChunk, h0, h]

theorem fillChunk_rest_le (amax : Int) (l : List (List Char)) (cl : Int) :
    (fillChunk amax cl l).2.length ≤ l.length := by
  have hsplit := fillChunk_split amax l cl
  have hlen := congrArg List.length hsplit
  rw [List.length_append] at hlen
  omega

theorem fillChunk_progress (amax : Int) (x : List Char) (xs : List (List Char))
    (h : (wcL x : Int) ≤ amax) :
    (fillChunk amax 0 (x :: xs)).2.length < (x :: xs).length := by
  rw [fillChunk_cons_fit amax x xs h]
  have := fillChunk_rest_le amax xs (0 + (wcL x : Int))
  simp only [List.length_cons]
  omega

theorem fillChunk_sum (amax : Int) (l : List (List Char)) :
    ∀ cl, (fillChunk amax cl l).1 ≠ [] →
      cl + (((fillChunk amax cl l).1.map wcL).sum : Int) ≤ amax := by
  induction l with
  | nil => intro cl hne; simp [fillChunk] at hne
  | cons x xs ih =>
    intro cl hne
    by_cases h : cl + (wcL x : Int) ≤ amax
    · simp only [fillChunk, h, if_pos] at hne ⊢
      by_cases ht : (fillChunk amax (cl + (wcL x : Int)) xs).1 = []
      · simp only [List.map_cons, List.sum_cons, ht, List.map_nil, List.sum_nil]
        push_cast
        omega
      · have := ih (cl + (wcL x : Int)) ht
        simp only [List.map_cons, List.sum_cons]
        push_cast at this ⊢
        omega
    · have hfc : fillChunk amax cl (x :: xs) = ([], x :: xs) := by simp [fillChunk, h]
      rw [hfc] at hne
      simp at hne

theorem fillChunk_next (amax : Int) (l : List (List Char)) :
    ∀ cl, (fillChunk amax cl l).2 ≠ [] →
      amax < cl + (((fillChunk amax cl l).1.map wcL).sum : Int) +
        (wcL ((fillChunk amax cl l).2.headD []) : Int) := by
  induction l with
  | nil => intro cl hne; simp [fillChunk] at hne
  | cons x xs ih =>
    intro cl hne
    by_cases h : cl + (wcL x : Int) ≤ amax
    · simp only [fillChunk, h, if_pos] at hne ⊢
      have := ih (cl + (wcL x : Int)) hne
      simp only [List.map_cons, List.sum_cons]
      push_cast at this ⊢
      omega
    · have hfc : fillChunk amax cl (x :: xs) = ([], x :: xs) := by simp [fillChunk, h]
      rw [hfc]
      simp only [List.map_nil, List.sum_nil, List.headD_cons]
      push_cast
      omega

theorem packChunksAux_nil (amax : Int) : ∀ fuel, packChunksAux fuel amax [] = [] := by
  intro fuel
  cases fuel <;> rfl

theorem packChunksAux_props (amax : Int) :
    ∀ fuel lines, (∀ l ∈ lines, (wcL l : Int) ≤ amax) →
      ∀ g ∈ packChunksAux fuel amax lines,
        g ≠ [] ∧ ((g.map wcL).sum : Int) ≤ amax := by
  intro fuel
  induction fuel with
  | zero => intro lines hfit g hg; simp [packChunksAux] at hg
  | succ fuel ih =>
    intro lines hfit g hg
    match lines with
    | [] => simp [packChunksAux] at hg
    | x :: xs =>
      simp only [packChunksAux] at hg
      have hxfit : (wcL x : Int) ≤ amax := hfit x (by simp)
      have hcf := fillChunk_cons_fit amax x xs hxfit
      rcases List.mem_cons.mp hg with hg | hg
      · subst hg
        constructor
        · rw [hcf]; simp
        · have hsum := fillChunk_sum amax (x :: xs) 0 (by rw [hcf]; simp)
          omega
      · have hsub : ∀ l ∈ (fillChunk amax 0 (x :: xs)).2, (wcL l : Int) ≤ amax := by
          intro l hl
          refine hfit l ?_
          rw [← fillChunk_split amax (x :: xs) 0]
          exact List.mem_append_right _ hl
        exact ih _ hsub g hg

theorem packChunksAux_flatten (amax : Int) :
    ∀ fuel lines, lines.length ≤ fuel → (∀ l ∈ lines, (wcL l : Int) ≤ amax) →
      (packChunksAux fuel amax lines).flatten = lines := by
  intro fuel
  induction fuel with
  | zero =>
    intro lines hlen hfit
    have : lines = [] := List.length_eq_zero.mp (Nat.le_zero.mp hlen)
    subst this
    rfl
  | succ fuel ih =>
    intro lines hlen hfit
    match lines with
    | [] => rfl
    | x :: xs =>
      simp only [packChunksAux, List.flatten_cons]
      have hxfit : (wcL x : Int) ≤ amax := hfit x (by simp)
      have hprog := fillChunk_progress amax x xs hxfit
      have hsub : ∀ l ∈ (fillChunk amax 0 (x :: xs)).2, (wcL l : Int) ≤ amax := by
        intro l hl
        refine hfit l ?_
        rw [← fillChunk_split amax (x :: xs) 0]
        exact List.mem_append_right _ hl
      have hlen2 : (fillChunk amax 0 (x :: xs)).2.length ≤ fuel := by
        simp only [List.length_cons] at hprog hlen
        omega
      rw [ih _ hlen2 hsub, fillChunk_split]

theorem packChunksAux_fuel_stable (amax : Int) :
    ∀ n lines, lines.length ≤ n → (∀ l ∈ lines, (wcL l : Int) ≤ amax) →
      ∀ fuel, lines.length ≤ fuel →
        packChunksAux fuel amax lines = packChunksAux lines.length amax lines := by
  intro n
  induction n with
  | zero =>
    intro lines hlen hfit fuel hfuel
    have : lines = [] := List.length_eq_zero.mp (Nat.le_zero.mp hlen)
    subst this
    rw [packChunksAux_nil, packChunksAux_nil]
  | succ n ih =>
    intro lines hlen hfit fuel hfuel
    cases lines with
    | nil => rw [packChunksAux_nil, packChunksAux_nil]
    | cons x xs =>
      cases fuel with
      | zero => simp at hfuel
      | succ f =>
        simp only [packChunksAux, List.length_cons]
        have hxfit : (wcL x : Int) ≤ amax := hfit x (by simp)
        have hprog := fillChunk_progress amax x xs hxfit
        simp only [List.length_cons] at hprog hlen hfuel
        have hsub : ∀ l ∈ (fillChunk amax 0 (x :: xs)).2, (wcL l : Int) ≤ amax := by
          intro l hl
          refine hfit l ?_
          rw [← fillChunk_split amax (x :: xs) 0]
          exact List.mem_append_right _ hl
        have hlt : (fillChunk amax 0 (x :: xs)).2.length ≤ n := by omega
        have h1 := ih _ hlt hsub f (by omega)
        have h2 := ih _ hlt hsub xs.length (by omega)
        rw [h1, h2]

theorem packChunksAux_chain (amax : Int) :
    ∀ fuel lines, (∀ l ∈ lines, (wcL l : Int) ≤ amax) →
      List.Chain'
        (fun g g2 => amax < ((g.map wcL).sum : Int) + (wcL (g2.headD []) : Int))
        (packChunksAux fuel amax lines) := by
  intro fuel
  induction fuel with
  | zero => intro lines hfit; simp [packChunksAux]
  | succ fuel ih =>
    intro lines hfit
    match lines with
    | [] => simp [packChunksAux]
    | x :: xs =>
      simp only [packChunksAux]
      have hxfit : (wcL x : Int) ≤ amax := hfit x (by simp)
      have hsub : ∀ l ∈ (fillChunk amax 0 (x :: xs)).2, (wcL l : Int) ≤ amax := by
        intro l hl
        refine hfit l ?_
        rw [← fillChunk_split amax (x :: xs) 0]
        exact List.mem_append_right _ hl
      rw [List.chain'_cons']
      refine ⟨?_, ih _ hsub⟩
      intro g2 hg2
      match hrest : (fillChunk amax 0 (x :: xs)).2 with
      | [] =>
        rw [hrest] at hg2
        rw [packChunksAux_nil] at hg2
        simp at hg2
      | y :: ys =>
        rw [hrest] at hg2
        match fuel, hg2 with
        | f + 1, hg2 =>
          simp only [packChunksAux] at hg2
          have hyfit : (wcL y : Int) ≤ amax := by
            refine hsub y ?_
            rw [hrest]
            simp
          have hhd := fillChunk_cons_fit amax y ys hyfit
          simp only [List.head?_cons, Option.mem_def, Option.some.injEq] at hg2
          have hnext := fillChunk_next amax (x :: xs) 0 (by rw [hrest]; simp)
          rw [hrest] at hnext
          simp only [List.headD_cons] at hnext
          subst hg2
          rw [hhd]
          simp only [List.headD_cons]
          omega

/-!  Word counts of the rendered sub-chunks. -/

theorem inWordAfter_append (b : Bool) (x y : List Char) :
    inWordAfter b (x ++ y) = inWordAfter (inWordAfter b x) y := by
  induction x generalizing b with
  | nil => simp [inWordAfter]
  | cons c rest ih => simp [inWordAfter, ih]

theorem wcL_renderGroup (g : List (List Char)) :
    wcL (renderGroup g) = (g.map wcL).sum := by
  induction g with
  | nil => simp [renderGroup, wcL, countWordsAux]
  | cons l ls ih =>
    have hshape : renderGroup (l :: ls) = l ++ '\n' :: renderGroup ls := by
      simp [renderGroup]
    rw [hshape]
    unfold wcL at ih ⊢
    rw [countWordsAux_sep_append]
    simp only [List.map_cons, List.sum_cons]
    rw [ih]

theorem cw_partPat (b : Bool) : countWordsAux b partPat = (if b then 0 else 1) + 1 := by
  cases b <;> rfl

theorem iwa_partPat (b : Bool) : inWordAfter b partPat = true := by
  cases b <;> rfl

theorem partRepl_tail_nonspace (k n : Nat) :
    ∀ c ∈ natDigits k ++ '/' :: natDigits n, isPySpace c = false := by
  intro c hc
  rcases List.mem_append.mp hc with hc | hc
  · exact natDigits_not_space k c hc
  · rcases List.mem_cons.mp hc with hc | hc
    · subst hc; rfl
    · exact natDigits_not_space n c hc

theorem cw_partRepl (k n : Nat) (b : Bool) :
    countWordsAux b (partRepl k n) = (if b then 0 else 1) + 1 := by
  unfold partRepl
  rw [countWordsAux_append]
  have hrun := countWordsAux_nonspace_run (natDigits k ++ '/' :: natDigits n)
    (by simp) (partRepl_tail_nonspace k n) false
  have h1 : countWordsAux b ("part ".data) = if b then 0 else 1 := by cases b <;> rfl
  have h2 : inWordAfter b ("part ".data) = false := by cases b <;> rfl
  rw [h1, h2, hrun.1]
  simp

theorem iwa_partRepl (k n : Nat) (b : Bool) : inWordAfter b (partRepl k n) = true := by
  unfold partRepl
  rw [inWordAfter_append]
  exact (countWordsAux_nonspace_run (natDigits k ++ '/' :: natDigits n)
    (by simp) (partRepl_tail_nonspace k n) _).2

theorem wcL_replace_header (lineage : List Char) (k n : Nat) :
    wcL (pyReplace partPat (partRepl k n) lineage) = wcL lineage := by
  unfold wcL
  exact countWordsAux_pyReplace partPat (partRepl k n)
    (fun b => by rw [cw_partPat, cw_partRepl])
    (fun b => by rw [iwa_partPat, iwa_partRepl]) lineage false

theorem wcL_subchunk (lineage : List Char) (k n : Nat) (g : List (List Char)) :
    wcL (pyReplace partPat (partRepl k n) lineage ++ '\n' :: renderGroup g) =
      wcL lineage + (g.map wcL).sum := by
  have h1 := wcL_replace_header lineage k n
  have h2 := wcL_renderGroup g
  unfold wcL at h1 h2 ⊢
  rw [countWordsAux_sep_append, h1, h2]

theorem mem_enumFrom_snd {α : Type} :
    ∀ (l : List α) (n : Nat) (p : Nat × α), p ∈ List.enumFrom n l → p.2 ∈ l := by
  intro l
  induction l with
  | nil => intro n p hp; simp [List.enumFrom] at hp
  | cons x xs ih =>
    intro n p hp
    simp only [List.enumFrom] at hp
    rcases List.mem_cons.mp hp with hp | hp
    · subst hp; simp
    · exact List.mem_cons_of_mem _ (ih (n + 1) p hp)

/-- The word count of the whole chunk is the header word count plus the sum
over the body lines (splitting on `"\n"` loses no words since `\n` is
whitespace). -/
theorem word_count_header_body (chunk : String) :
    word_count chunk = wcL (splitHeader chunk) + ((splitBody chunk).map wcL).sum := by
  unfold word_count splitHeader splitBody splitLines wcL
  exact countWordsAux_splitNl chunk.data false

theorem processChunk_wc (maxLen : Nat) (chunk : String) (out : List String)
    (h : processChunk maxLen chunk = .ok out) : ∀ c ∈ out, word_count c ≤ maxLen := by
  intro c hc
  unfold processChunk at h
  by_cases h1 : word_count chunk ≤ maxLen
  · rw [if_pos h1] at h
    have : [chunk] = out := by
      simpa using h
    rw [← this] at hc
    rcases List.mem_singleton.mp hc with hc
    subst hc
    exact h1
  · rw [if_neg h1] at h
    by_cases h2 : (splitBody chunk).any (fun l => decide (adjustedMax maxLen chunk < (wcL l : Int)))
    · rw [if_pos h2] at h
      simp at h
    · rw [if_neg h2] at h
      have hout : ((splitGroups maxLen chunk).enum.map (fun p =>
          String.mk (pyReplace partPat (partRepl (p.1 + 1) (splitGroups maxLen chunk).length)
            (splitHeader chunk) ++ '\n' :: renderGroup p.2))) = out := by
        simpa using h
      rw [← hout] at hc
      obtain ⟨p, hp, hpc⟩ := List.mem_map.mp hc
      have hpg : p.2 ∈ splitGroups maxLen chunk := by
        have : p ∈ List.enumFrom 0 (splitGroups maxLen chunk) := hp
        exact mem_enumFrom_snd _ _ _ this
      have hfit : ∀ l ∈ splitBody chunk, (wcL l : Int) ≤ adjustedMax maxLen chunk := by
        intro l hl
        have := List.any_eq_true.not.mp h2
        push_neg at this
        have := this l hl
        simp at this
        omega
      have hprops := packChunksAux_props (adjustedMax maxLen chunk)
        (splitBody chunk).length (splitBody chunk) hfit p.2 hpg
      have hwc : word_count c =
          wcL (splitHeader chunk) + (p.2.map wcL).sum := by
        rw [← hpc]
        unfold word_count
        show wcL _ = _
        exact wcL_subchunk (splitHeader chunk) (p.1 + 1) (splitGroups maxLen chunk).length p.2
      have hadj : adjustedMax maxLen chunk = (maxLen : Int) - (wcL (splitHeader chunk) : Int) := rfl
      have hsum := hprops.2
      rw [hadj] at hsum
      omega

/-- Lifts the per-chunk bound over the `for chunk in chunks` loop. -/
theorem splitChunks_wc (maxLen : Nat) :
    ∀ chunks out, splitChunks maxLen chunks = .ok out → ∀ c ∈ out, word_count c ≤ maxLen := by
  intro chunks
  induction chunks with
  | nil =>
    intro out h c hc
    simp only [splitChunks] at h
    have : ([] : List String) = out := by simpa using h
    rw [← this] at hc
    simp at hc
  | cons x xs ih =>
    intro out h c hc
    simp only [splitChunks] at h
    match hp : processChunk maxLen x with
    | .error e => rw [hp] at h; simp at h
    | .ok v =>
      rw [hp] at h
      match hrec : splitChunks maxLen xs with
      | .error e => rw [hrec] at h; simp at h
      | .ok rest =>
        rw [hrec] at h
        have : v ++ rest = out := by simpa using h
        rw [← this] at hc
        rcases List.mem_append.mp hc with hc | hc
        · exact processChunk_wc maxLen x v hp c hc
        · exact ih rest hrec c hc

/-- C9: splitting is the identity under budget: a chunk whose full
annotated text has word count at most `max_chunk_length` is emitted
unchanged as exactly one chunk. -/
theorem C9_split_identity_under_budget (maxLen : Nat) (chunk : String)
    (h : word_count chunk ≤ maxLen) :
    processChunk maxLen chunk = .ok [chunk] := by
  unfold processChunk
  rw [if_pos h]

theorem C9_split_identity_witness :
    word_count "In section: 1 Aa, part 1/1:\nshort body" ≤ 500 ∧
      processChunk 500 "In section: 1 Aa, part 1/1:\nshort body" =
        .ok ["In section: 1 Aa, part 1/1:\nshort body"] :=
  ⟨by decide, C9_split_identity_under_budget 500 _ (by decide)⟩

/-- C4: for an oversized section, a non-positive adjusted budget or any
body line exceeding it makes `split` fail with `LineTooLong` (the
`ValueError`), with no sub-line splitting attempted.  `splitBody chunk ≠ []`
holds for every annotated section text, whose header line is followed by a
newline. -/
theorem C4_line_too_long (maxLen : Nat) (chunk : String)
    (hover : maxLen < word_count chunk)
    (hbody : splitBody chunk ≠ [])
    (hbad : adjustedMax maxLen chunk ≤ 0 ∨
      ∃ l ∈ splitBody chunk, adjustedMax maxLen chunk < (wcL l : Int)) :
    processChunk maxLen chunk = .error "LineTooLong" := by
  have hex : ∃ l ∈ splitBody chunk, adjustedMax maxLen chunk < (wcL l : Int) := by
    rcases hbad with hbad | hbad
    · rcases lt_or_eq_of_le hbad with hlt | heq
      · match hb : splitBody chunk, hbody with
        | x :: xs, _ =>
          refine ⟨x, by simp, ?_⟩
          have : (0 : Int) ≤ (wcL x : Int) := Int.ofNat_nonneg _
          omega
      · have hps := word_count_header_body chunk
        have hsum : ((splitBody chunk).map wcL).sum ≠ 0 := by
          intro h0
          rw [h0] at hps
          unfold adjustedMax at heq
          omega
        by_contra hall
        push_neg at hall
        refine hsum (List.sum_eq_zero ?_)
        intro x hx
        obtain ⟨l, hl, hlx⟩ := List.mem_map.mp hx
        have := hall l hl
        omega
    · exact hbad
  have hany : (splitBody chunk).any
      (fun l => decide (adjustedMax maxLen chunk < (wcL l : Int))) = true := by
    rw [List.any_eq_true]
    obtain ⟨l, hl, hlt⟩ := hex
    exact ⟨l, hl, by simpa using hlt⟩
  unfold processChunk
  rw [if_neg (by omega), if_pos hany]

/-!  Concrete example inputs.  Long example lines are built from `wSeq`
(repeated `"w "`), with their word counts and line structure established by
the lemmas below rather than by deep kernel evaluation. -/

def wSeq : Nat → List Char
  | 0 => []
  | n + 1 => 'w' :: ' ' :: wSeq n

/-- A line of `n + 1` single-letter words separated by single spaces. -/
def wLine (n : Nat) : List Char := wSeq n ++ ['w']

theorem cw_wSeq_append (t : List Char) :
    ∀ n, countWordsAux false (wSeq n ++ t) = n + countWordsAux false t := by
  intro n
  induction n with
  | zero => simp [wSeq]
  | succ n ih =>
    have hw : isPySpace 'w' = false := by decide
    have hsp : isPySpace ' ' = true := by decide
    show countWordsAux false ('w' :: ' ' :: (wSeq n ++ t)) = (n + 1) + countWordsAux false t
    simp only [countWordsAux, hw, hsp]
    simp only [Bool.false_eq_true, if_false, if_true]
    omega

theorem wcL_wLine (n : Nat) : wcL (wLine n) = n + 1 := by
  unfold wcL wLine
  rw [cw_wSeq_append]
  rfl

theorem wSeq_no_newline : ∀ n, ∀ c ∈ wSeq n, c ≠ '\n' := by
  intro n
  induction n with
  | zero => simp [wSeq]
  | succ n ih =>
    intro c hc
    rcases List.mem_cons.mp hc with hc | hc
    · subst hc; decide
    · rcases List.mem_cons.mp hc with hc | hc
      · subst hc; decide
      · exact ih c hc

theorem wLine_no_newline (n : Nat) : ∀ c ∈ wLine n, c ≠ '\n' := by
  intro c hc
  rcases List.mem_append.mp hc with hc | hc
  · exact wSeq_no_newline n c hc
  · rcases List.mem_singleton.mp hc with hc
    subst hc
    decide

theorem pySplitChar_no_sep (sep : Char) (l : List Char) (h : ∀ c ∈ l, c ≠ sep) :
    pySplitChar sep l = [l] := by
  induction l with
  | nil => rfl
  | cons c rest ih =>
    have hc : c ≠ sep := h c (by simp)
    have hr := ih (fun x hx => h x (by simp [hx]))
    simp [pySplitChar, hc, hr]

theorem pySplitChar_append_sep (sep : Char) (a b : List Char) (h : ∀ c ∈ a, c ≠ sep) :
    pySplitChar sep (a ++ sep :: b) = a :: pySplitChar sep b := by
  induction a with
  | nil => simp [pySplitChar]
  | cons c rest ih =>
    have hc : c ≠ sep := h c (by simp)
    have hr := ih (fun x hx => h x (by simp [hx]))
    simp [pySplitChar, hc, hr]

/-- `wcL` distributes over a newline. -/
theorem wcL_sep (a b : List Char) : wcL (a ++ '\n' :: b) = wcL a + wcL b :=
  countWordsAux_sep_append false a b

def c4LineData : List Char := wLine 599

def c4HeaderData : List Char := "In section: 1 Aa, part 1/1:".data

def c4Chunk : String := String.mk (c4HeaderData ++ '\n' :: c4LineData)

theorem c4_facts :
    word_count c4Chunk = 606 ∧ splitBody c4Chunk = [c4LineData] ∧
      adjustedMax 500 c4Chunk = 494 ∧ wcL c4LineData = 600 := by
  have hline : wcL c4LineData = 600 := by
    unfold c4LineData
    rw [wcL_wLine]
  have hsl : splitLines c4Chunk = [c4HeaderData, c4LineData] := by
    unfold splitLines c4Chunk
    show pySplitChar '\n' (c4HeaderData ++ '\n' :: c4LineData) = _
    rw [pySplitChar_append_sep '\n' _ _ (by decide),
      pySplitChar_no_sep '\n' c4LineData (wLine_no_newline 599)]
  have hwc : word_count c4Chunk = 606 := by
    unfold word_count c4Chunk
    show wcL (c4HeaderData ++ '\n' :: c4LineData) = 606
    rw [wcL_sep, hline]
    rfl
  refine ⟨hwc, ?_, ?_, hline⟩
  · unfold splitBody
    rw [hsl]
    rfl
  · unfold adjustedMax splitHeader
    rw [hsl]
    show (500 : Int) - (wcL c4HeaderData : Int) = 494
    norm_num [show wcL c4HeaderData = 6 from by decide]

theorem C4_line_too_long_witness :
    500 < word_count c4Chunk ∧ splitBody c4Chunk ≠ [] ∧
      (∃ l ∈ splitBody c4Chunk, adjustedMax 500 c4Chunk < (wcL l : Int)) ∧
      processChunk 500 c4Chunk = .error "LineTooLong" := by
  obtain ⟨hwc, hb, hadj, hline⟩ := c4_facts
  have hex : ∃ l ∈ splitBody c4Chunk, adjustedMax 500 c4Chunk < (wcL l : Int) := by
    rw [hb, hadj]
    exact ⟨c4LineData, by simp, by rw [hline]; norm_num⟩
  exact ⟨by omega, by rw [hb]; simp, hex,
    C4_line_too_long 500 c4Chunk (by omega) (by rw [hb]; simp) (Or.inr hex)⟩

/-- C10: under the per-line pre-check the packing loop terminates: the
inner loop always consumes at least one line from a fresh sub-chunk, and
`lines.length` outer iterations already reach the fixed point, so any
larger fuel gives the same result. -/
theorem C10_packing_terminates (amax : Int) (lines : List (List Char))
    (hfit : ∀ l ∈ lines, (wcL l : Int) ≤ amax) :
    (lines ≠ [] → (fillChunk amax 0 lines).2.length < lines.length) ∧
    ∀ fuel, lines.length ≤ fuel →
      packChunksAux fuel amax lines = packChunksAux lines.length amax lines := by
  constructor
  · intro hne
    match lines, hne with
    | x :: xs, _ => exact fillChunk_progress amax x xs (hfit x (by simp))
  · intro fuel hfuel
    exact packChunksAux_fuel_stable amax lines.length lines le_rfl hfit fuel hfuel

def c10Lines : List (List Char) := ["ab cd".data, "ef".data]

theorem C10_packing_witness :
    (∀ l ∈ c10Lines, (wcL l : Int) ≤ 2) ∧
      (c10Lines ≠ [] → (fillChunk 2 0 c10Lines).2.length < c10Lines.length) ∧
      packChunksAux 7 2 c10Lines = packChunksAux c10Lines.length 2 c10Lines :=
  ⟨by decide, (C10_packing_terminates 2 c10Lines (by decide)).1,
    (C10_packing_terminates 2 c10Lines (by decide)).2 7 (by decide)⟩

/-- C1: for an oversized section none of whose body lines exceeds the
adjusted budget, the splitter packs whole consecutive body lines greedily:
every sub-chunk is a non-empty group of lines within `adjusted_max`,
consecutive groups overflow the budget when extended by the next group's
first line (the bound closes a sub-chunk exactly when the next line would
exceed it), the concatenation of the groups reproduces the body lines
verbatim and in order, and the output is exactly these groups, each
prefixed by the header with `part 1/1` rewritten to `part k/n`. -/
theorem C1_greedy_split (maxLen : Nat) (chunk : String)
    (hover : maxLen < word_count chunk)
    (hfit : ∀ l ∈ splitBody chunk, (wcL l : Int) ≤ adjustedMax maxLen chunk) :
    (splitGroups maxLen chunk).flatten = splitBody chunk ∧
    (∀ g ∈ splitGroups maxLen chunk,
      g ≠ [] ∧ ((g.map wcL).sum : Int) ≤ adjustedMax maxLen chunk) ∧
    List.Chain'
      (fun g g2 => adjustedMax maxLen chunk <
        ((g.map wcL).sum : Int) + (wcL (g2.headD []) : Int))
      (splitGroups maxLen chunk) ∧
    processChunk maxLen chunk = .ok ((splitGroups maxLen chunk).enum.map (fun p =>
      String.mk (pyReplace partPat (partRepl (p.1 + 1) (splitGroups maxLen chunk).length)
        (splitHeader chunk) ++ '\n' :: renderGroup p.2))) := by
  refine ⟨?_, ?_, ?_, ?_⟩
  · exact packChunksAux_flatten (adjustedMax maxLen chunk) (splitBody chunk).length
      (splitBody chunk) le_rfl hfit
  · exact packChunksAux_props (adjustedMax maxLen chunk) (splitBody chunk).length
      (splitBody chunk) hfit
  · exact packChunksAux_chain (adjustedMax maxLen chunk) (splitBody chunk).length
      (splitBody chunk) hfit
  · have hany : (splitBody chunk).any
        (fun l => decide (adjustedMax maxLen chunk < (wcL l : Int))) = false := by
      rw [List.any_eq_false]
      intro l hl
      simpa using hfit l hl
    unfold processChunk
    rw [if_neg (by omega), if_neg (by simp [hany])]

def c1LineData : List Char := wLine 99

def c1HeaderData : List Char :=
  "In section: Alpha Beta Gamma Delta Epsilon Zeta, part 1/1:".data

def c1Chunk : String :=
  String.mk (c1HeaderData ++ '\n' :: (c1LineData ++ '\n' :: (c1LineData ++ '\n' ::
    (c1LineData ++ '\n' :: (c1LineData ++ '\n' :: c1LineData)))))

theorem c1_facts :
    word_count c1Chunk = 510 ∧
    splitBody c1Chunk = [c1LineData, c1LineData, c1LineData, c1LineData, c1LineData] ∧
    adjustedMax 250 c1Chunk = 240 ∧ wcL c1LineData = 100 := by
  have hline : wcL c1LineData = 100 := by
    unfold c1LineData
    rw [wcL_wLine]
  have hnl := wLine_no_newline 99
  have hsl : splitLines c1Chunk =
      [c1HeaderData, c1LineData, c1LineData, c1LineData, c1LineData, c1LineData] := by
    unfold splitLines c1Chunk
    show pySplitChar '\n' (c1HeaderData ++ '\n' :: (c1LineData ++ '\n' :: (c1LineData ++ '\n' ::
      (c1LineData ++ '\n' :: (c1LineData ++ '\n' :: c1LineData))))) = _
    rw [pySplitChar_append_sep '\n' _ _ (by decide),
      pySplitChar_append_sep '\n' c1LineData _ hnl,
      pySplitChar_append_sep '\n' c1LineData _ hnl,
      pySplitChar_append_sep '\n' c1LineData _ hnl,
      pySplitChar_append_sep '\n' c1LineData _ hnl,
      pySplitChar_no_sep '\n' c1LineData hnl]
  have hwc : word_count c1Chunk = 510 := by
    unfold word_count c1Chunk
    show wcL (c1HeaderData ++ '\n' :: (c1LineData ++ '\n' :: (c1LineData ++ '\n' ::
      (c1LineData ++ '\n' :: (c1LineData ++ '\n' :: c1LineData))))) = 510
    rw [wcL_sep, wcL_sep, wcL_sep, wcL_sep, wcL_sep, hline]
    norm_num [show wcL c1HeaderData = 10 from by decide]
  refine ⟨hwc, ?_, ?_, hline⟩
  · unfold splitBody
    rw [hsl]
    rfl
  · unfold adjustedMax splitHeader
    rw [hsl]
    show (250 : Int) - (wcL c1HeaderData : Int) = 240
    norm_num [show wcL c1HeaderData = 10 from by decide]

theorem C1_greedy_split_witness :
    (250 < word_count c1Chunk) ∧
    (∀ l ∈ splitBody c1Chunk, (wcL l : Int) ≤ adjustedMax 250 c1Chunk) ∧
    adjustedMax 250 c1Chunk = 240 ∧ wcL c1LineData = 100 ∧
    splitGroups 250 c1Chunk =
      [[c1LineData, c1LineData], [c1LineData, c1LineData], [c1LineData]] ∧
    pyReplace partPat (partRepl 1 3) c1HeaderData =
      "In section: Alpha Beta Gamma Delta Epsilon Zeta, part 1/3:".data ∧
    pyReplace partPat (partRepl 2 3) c1HeaderData =
      "In section: Alpha Beta Gamma Delta Epsilon Zeta, part 2/3:".data ∧
    pyReplace partPat (partRepl 3 3) c1HeaderData =
      "In section: Alpha Beta Gamma Delta Epsilon Zeta, part 3/3:".data ∧
    (splitGroups 250 c1Chunk).flatten = splitBody c1Chunk := by
  obtain ⟨hwc, hb, hadj, hline⟩ := c1_facts
  have hfit : ∀ l ∈ splitBody c1Chunk, (wcL l : Int) ≤ adjustedMax 250 c1Chunk := by
    rw [hb, hadj]
    intro l hl
    simp only [List.mem_cons, List.not_mem_nil, or_false] at hl
    have : l = c1LineData := by
      rcases hl with h | h | h | h | h
      all_goals exact h
    subst this
    rw [hline]
    norm_num
  have hgroups : splitGroups 250 c1Chunk =
      [[c1LineData, c1LineData], [c1LineData, c1LineData], [c1LineData]] := by
    unfold splitGroups
    rw [hb, hadj]
    have h1 : ((0 : Int) + (wcL c1LineData : Int) ≤ 240) = True := by
      rw [hline]; norm_num
    have h2 : ((0 : Int) + (wcL c1LineData : Int) + (wcL c1LineData : Int) ≤ 240) = True := by
      rw [hline]; norm_num
    have h3 : ((0 : Int) + (wcL c1LineData : Int) + (wcL c1LineData : Int) +
        (wcL c1LineData : Int) ≤ 240) = False := by
      rw [hline]; norm_num
    simp only [packChunksAux, fillChunk, List.length_cons, List.length_nil, hline]
    norm_num
  refine ⟨by omega, hfit, hadj, hline, hgroups, by decide, by decide, by decide, ?_⟩
  exact (C1_greedy_split 250 c1Chunk (by omega) hfit).1

/-- C5: every chunk string returned by `split` has word count at most
`max_chunk_length`: within-budget chunks are passed through unchanged and
every produced sub-chunk (rewritten lineage header plus packed body lines)
stays within the bound. -/
theorem C5_chunks_bounded (maxLen : Nat) (text : String) (out : List String)
    (h : split maxLen text = .ok out) : ∀ c ∈ out, word_count c ≤ maxLen := by
  unfold split at h
  match he : enrich_section_chunks text with
  | .error e => rw [he] at h; simp at h
  | .ok chunks =>
    rw [he] at h
    exact splitChunks_wc maxLen chunks out h

theorem C5_chunks_bounded_witness :
    split 500 "  1 Aa\nbody stuff\n  2 Bb\ntail\n" =
      .ok ["In section: 1 Aa, part 1/1:\n1 Aa\nbody stuff\n  "] ∧
    word_count "In section: 1 Aa, part 1/1:\n1 Aa\nbody stuff\n  " ≤ 500 :=
  ⟨by rfl,
    C5_chunks_bounded 500 "  1 Aa\nbody stuff\n  2 Bb\ntail\n"
      ["In section: 1 Aa, part 1/1:\n1 Aa\nbody stuff\n  "] (by rfl) _ (by simp)⟩

/-!  Dotted-identifier comparison (claim C6). -/

theorem numberOf_eq_parse (a b : String) (h : numberOfD a = numberOfD b) :
    parseDottedD a = parseDottedD b := by
  unfold numberOfD numberOf at h
  unfold parseDottedD
  match hma : matchNumber a.data, hmb : matchNumber b.data with
  | none, none => rfl
  | some (na, ra), none =>
    rw [hma, hmb] at h
    simp only [Option.map_some', Option.map_none', Option.getD_some, Option.getD_none] at h
    obtain ⟨d, ds, hshape, _⟩ := (matchNumber_sound a.data na ra hma).2
    rw [hshape] at h
    exact absurd (congrArg String.data h) (by simp)
  | none, some (nb, rb) =>
    rw [hma, hmb] at h
    simp only [Option.map_some', Option.map_none', Option.getD_some, Option.getD_none] at h
    obtain ⟨d, ds, hshape, _⟩ := (matchNumber_sound b.data nb rb hmb).2
    rw [hshape] at h
    exact absurd (congrArg String.data h).symm (by simp)
  | some (na, ra), some (nb, rb) =>
    rw [hma, hmb] at h
    simp only [Option.map_some', Option.getD_some] at h
    have : na = nb := congrArg String.data h
    rw [this]

/-- C6 counterexample: the titles `"1.02 Aa"` and `"1.2 Bb"` have equal
integer component sequences `[1, 2]`, yet `__eq__` (string comparison of
the numbering prefixes) deems them different — equality is not determined
by the integer sequences alone, refuting the claimed "iff". -/
theorem C6_numeric_comparison_cex :
    parseDottedD "1.02 Aa" = parseDottedD "1.2 Bb" ∧ dsEq "1.02 Aa" "1.2 Bb" = false := by
  constructor <;> decide

/-- C6 (amended): `__lt__` is component-wise numeric (via
`packaging.version.Version`), so `"1.10" > "1.9"` and `"1.2" == "1.2"`;
two identifiers are `__eq__`-equal iff their numbering strings are equal,
and string equality implies (but is not implied by) equality of the integer
component sequences. -/
theorem C6_numeric_comparison (a b : String) :
    dsLt "1.9 Aa" "1.10 Bb" = true ∧
    dsLt "1.10 Bb" "1.9 Aa" = false ∧
    dsEq "1.2 Aa" "1.2 Bb" = true ∧
    dsLt "1.2 Aa" "1.2 Bb" = false ∧
    (dsEq a b = true → parseDottedD a = parseDottedD b) := by
  refine ⟨by decide, by decide, by decide, by decide, fun h => ?_⟩
  refine numberOf_eq_parse a b ?_
  unfold dsEq at h
  exact eq_of_beq h

theorem C6_numeric_comparison_witness :
    dsEq "1.2 Aa" "1.2 Bb" = true ∧ parseDottedD "1.2 Aa" = parseDottedD "1.2 Bb" :=
  ⟨by decide, (C6_numeric_comparison "1.2 Aa" "1.2 Bb").2.2.2.2 (by decide)⟩

/-!  Validation (claim C8). -/

/-- C8: validation drops exactly the all-upper-case titles and the titles
whose numbering prefix has a component of more than two digits, and keeps
the rest in order.  The hypotheses reflect the claim's scope: candidate
titles (as produced by extraction) carry a numbering prefix, so the
`AttributeError` path is not taken, and a non-empty surviving list is
returned rather than `NoSectionsFound`. -/
theorem C8_validation_filters (sections : List String)
    (hnum : ∀ s ∈ sections, pyIsUpper s = false → (numbersValid s).isSome)
    (hne : sections.filter (fun s => !(pyIsUpper s) && (numbersValid s).getD false) ≠ []) :
    validate_extracted_sections sections =
      .ok (sections.filter (fun s => !(pyIsUpper s) && (numbersValid s).getD false)) := by
  have hff : (sections.filter (fun s => !(pyIsUpper s))).filter
      (fun s => (numbersValid s).getD false) =
      sections.filter (fun s => !(pyIsUpper s) && (numbersValid s).getD false) := by
    rw [List.filter_filter]
    congr 1
    funext a
    exact Bool.and_comm _ _
  have hanynone : (sections.filter (fun s => !(pyIsUpper s))).any
      (fun s => (numbersValid s).isNone) = false := by
    rw [List.any_eq_false]
    intro s hs
    rw [List.mem_filter] at hs
    have hsome := hnum s hs.1 (by simpa using hs.2)
    rcases Option.isSome_iff_exists.mp hsome with ⟨v, hv⟩
    simp [hv]
  unfold validate_extracted_sections
  dsimp only
  rw [hanynone]
  simp only [Bool.false_eq_true, if_false, hff]
  rw [if_neg (by simpa using hne)]

def c8Sections : List String := ["REVISION HISTORY", "1 Intro", "150.1 Foo"]

theorem C8_validation_filters_witness :
    (∀ s ∈ c8Sections, pyIsUpper s = false → (numbersValid s).isSome) ∧
      c8Sections.filter (fun s => !(pyIsUpper s) && (numbersValid s).getD false) =
        ["1 Intro"] ∧
      validate_extracted_sections c8Sections = .ok ["1 Intro"] := by
  refine ⟨by decide, by decide, ?_⟩
  have h := C8_validation_filters c8Sections (by decide) (by decide)
  rw [h]
  rw [show c8Sections.filter (fun s => !(pyIsUpper s) && (numbersValid s).getD false) =
    ["1 Intro"] from by decide]

/-!  NoSectionsFound (claim C7). -/

theorem findallScan_digit_head :
    ∀ fuel b s, ∀ t ∈ findallScan fuel b s,
      ∃ d ds, t.data = d :: ds ∧ isPyDigit d = true := by
  intro fuel
  induction fuel with
  | zero => intro b s t ht; simp [findallScan] at ht
  | succ fuel ih =>
    intro b s t ht
    cases s with
    | nil => simp [findallScan] at ht
    | cons c rest =>
      by_cases hb : b
      · subst hb
        match hm : tryMatch (c :: rest) with
        | some (g, r) =>
          have hstep : findallScan (fuel + 1) true (c :: rest) =
              String.mk g :: findallScan fuel false r := by
            simp only [findallScan, if_true]
            rw [hm]
          rw [hstep] at ht
          rcases List.mem_cons.mp ht with h | h
          · subst h
            obtain ⟨_, d, ds, hg, hd⟩ := tryMatch_sound _ _ _ hm
            exact ⟨d, ds, by simp [hg], hd⟩
          · exact ih false r t h
        | none =>
          have hstep : findallScan (fuel + 1) true (c :: rest) =
              findallScan fuel (c = '\n') rest := by
            simp only [findallScan, if_true]
            rw [hm]
          rw [hstep] at ht
          exact ih _ rest t ht
      · have hbf : b = false := by simpa using hb
        subst hbf
        have hstep : findallScan (fuel + 1) false (c :: rest) =
            findallScan fuel (c = '\n') rest := by
          simp [findallScan]
        rw [hstep] at ht
        exact ih _ rest t ht

theorem matchNumber_isSome (d : Char) (ds : List Char) (h : isPyDigit d = true) :
    (matchNumber (d :: ds)).isSome = true := by
  unfold matchNumber
  rw [List.span_eq_take_drop, List.takeWhile_cons_of_pos h]
  simp

theorem extracted_numbersValid (text : String) :
    ∀ t ∈ extractTitles text, (numbersValid t).isSome = true := by
  intro t ht
  obtain ⟨d, ds, hdata, hdig⟩ := findallScan_digit_head _ _ _ t ht
  unfold numbersValid
  rw [hdata]
  simp [Option.isSome_map]
  have := matchNumber_isSome d ds hdig
  rcases Option.isSome_iff_exists.mp this with ⟨v, hv⟩
  simp [hv]

theorem assignPairs_error (text : String) :
    ∀ pairs arena e, assignPairs text arena pairs = .error e → e = "AttributeError" := by
  intro pairs
  induction pairs with
  | nil => intro arena e h; simp [assignPairs] at h
  | cons p rest ih =>
    intro arena e h
    obtain ⟨cur, nxt⟩ := p
    simp only [assignPairs] at h
    match hs : searchArena arena cur with
    | none =>
      rw [hs] at h
      have := Except.error.injEq _ _ |>.mp h
      exact this.symm
    | some i =>
      rw [hs] at h
      exact ih _ e h

theorem collectChunks_error (arena : List SNode) :
    ∀ ts e, collectChunks arena ts = .error e → e = "AttributeError" := by
  intro ts
  induction ts with
  | nil => intro e h; simp [collectChunks] at h
  | cons t rest ih =>
    intro e h
    simp only [collectChunks] at h
    match hs : searchArena arena t with
    | none =>
      rw [hs] at h
      have := Except.error.injEq _ _ |>.mp h
      exact this.symm
    | some i =>
      rw [hs] at h
      simp only at h
      match hc : ((arena.getD i default).content) with
      | none =>
        rw [hc] at h
        exact ih e h
      | some c =>
        rw [hc] at h
        match hr : collectChunks arena rest with
        | .error e2 =>
          rw [hr] at h
          have := Except.error.injEq _ _ |>.mp h
          subst this
          exact ih e2 hr
        | .ok out =>
          rw [hr] at h
          simp at h

theorem enrichFromTitles_error (text : String) (titles : List String) (e : String)
    (h : enrichFromTitles text titles = .error e) : e = "AttributeError" := by
  unfold enrichFromTitles at h
  match ha : enrichArena text titles with
  | .error e2 =>
    rw [ha] at h
    have he := Except.error.injEq _ _ |>.mp h
    subst he
    unfold enrichArena at ha
    exact assignPairs_error text _ _ _ ha
  | .ok arena =>
    rw [ha] at h
    exact collectChunks_error arena _ e h

theorem validate_eq_filter (sections : List String)
    (hd : ∀ s ∈ sections, (numbersValid s).isSome = true) :
    validate_extracted_sections sections =
      if sections.filter (fun s => !(pyIsUpper s) && (numbersValid s).getD false) = []
      then .error "NoSectionsFound"
      else .ok (sections.filter (fun s => !(pyIsUpper s) && (numbersValid s).getD false)) := by
  have hff : (sections.filter (fun s => !(pyIsUpper s))).filter
      (fun s => (numbersValid s).getD false) =
      sections.filter (fun s => !(pyIsUpper s) && (numbersValid s).getD false) := by
    rw [List.filter_filter]
    congr 1
    funext a
    exact Bool.and_comm _ _
  have hanynone : (sections.filter (fun s => !(pyIsUpper s))).any
      (fun s => (numbersValid s).isNone) = false := by
    rw [List.any_eq_false]
    intro s hs
    rw [List.mem_filter] at hs
    rcases Option.isSome_iff_exists.mp (hd s hs.1) with ⟨v, hv⟩
    simp [hv]
  unfold validate_extracted_sections
  dsimp only
  rw [hanynone]
  simp only [Bool.false_eq_true, if_false, hff]
  by_cases hemp : sections.filter (fun s => !(pyIsUpper s) && (numbersValid s).getD false) = []
  · rw [if_pos (by simpa using hemp), if_pos hemp]
  · rw [if_neg (by simpa using hemp), if_neg hemp]

/-- C7: parsing raises `NoSectionsFound` exactly when title extraction
finds no matching line, or validation filters every extracted candidate
out; in either case the call returns the error and no chunk list. -/
theorem C7_no_sections_found (text : String) :
    enrich_section_chunks text = .error "NoSectionsFound" ↔
      (extractTitles text = [] ∨
        (extractTitles text).filter
          (fun s => !(pyIsUpper s) && (numbersValid s).getD false) = []) := by
  unfold enrich_section_chunks extract_sections
  by_cases hx : extractTitles text = []
  · rw [hx]
    simp
  · rw [if_neg (by simpa using hx)]
    dsimp only
    rw [validate_eq_filter (extractTitles text) (extracted_numbersValid text)]
    by_cases hf : (extractTitles text).filter
        (fun s => !(pyIsUpper s) && (numbersValid s).getD false) = []
    · rw [if_pos hf]
      simp [hx, hf]
    · rw [if_neg hf]
      constructor
      · intro h
        have := enrichFromTitles_error text _ _ h
        simp at this
      · intro h
        rcases h with h | h
        · exact absurd h hx
        · exact absurd h hf

theorem C7_no_sections_found_witness :
    enrich_section_chunks "hello world\nsup" = .error "NoSectionsFound" :=
  (C7_no_sections_found "hello world\nsup").mpr (Or.inl (by rfl))

/-!  Tree builder invariant (claim C2). -/

theorem getq_set_append (arena : List SNode) (k : Nat) (v w : SNode) (j : Nat) :
    (arena.set k v ++ [w])[j]? =
      if j < arena.length then (if k = j then some v else arena[j]?)
      else if j = arena.length then some w else none := by
  rw [List.getElem?_append, List.length_set]
  by_cases hj : j < arena.length
  · rw [if_pos hj, if_pos hj, List.getElem?_set]
    by_cases hk : k = j
    · rw [if_pos hk, if_pos hk]
      subst hk
      rw [if_pos hj]
    · rw [if_neg hk, if_neg hk]
  · rw [if_neg hj, if_neg hj]
    by_cases he : j = arena.length
    · subst he
      simp
    · have : 1 ≤ j - arena.length := by omega
      rw [if_neg he]
      match hd : j - arena.length with
      | 0 => omega
      | d + 1 => simp

/-- The per-arena invariant: every `children` entry points into the arena,
at a node satisfying `is_child_of` with respect to its parent. -/
abbrev childLinksOk (arena : List SNode) : Prop :=
  ∀ (i : Nat) (ni : SNode), arena[i]? = some ni → ∀ j ∈ ni.children,
    j < arena.length ∧
      ∀ (nj : SNode), arena[j]? = some nj → is_child_of nj.title ni.title = true

theorem link_titles_transfer (arena : List SNode) (k : Nat) (v w : SNode)
    (hvt : v.title = (arena.getD k default).title) (j : Nat) (hj : j < arena.length)
    (T : String)
    (hp : ∀ nj, arena[j]? = some nj → is_child_of nj.title T = true) :
    ∀ nj, (arena.set k v ++ [w])[j]? = some nj → is_child_of nj.title T = true := by
  intro nj hnj
  rw [getq_set_append, if_pos hj] at hnj
  by_cases hk : k = j
  · rw [if_pos hk] at hnj
    have hv : v = nj := Option.some.inj hnj
    subst hv
    subst hk
    obtain ⟨nodeK, hnodeK⟩ : ∃ nd, arena[k]? = some nd :=
      ⟨arena.get ⟨k, hj⟩, List.getElem?_eq_getElem hj⟩
    have hgd : arena.getD k default = nodeK := by
      rw [List.getD_eq_getElem?_getD, hnodeK]
      rfl
    rw [hvt, hgd]
    exact hp nodeK hnodeK
  · rw [if_neg hk] at hnj
    exact hp nj hnj

theorem childLinksOk_set_append (arena : List SNode) (k : Nat) (v w : SNode)
    (hInv : childLinksOk arena)
    (hvt : v.title = (arena.getD k default).title)
    (hvc : v.children = (arena.getD k default).children ∨
      (v.children = (arena.getD k default).children ++ [arena.length] ∧
        is_child_of w.title v.title = true))
    (hwc : w.children = []) :
    childLinksOk (arena.set k v ++ [w]) := by
  intro i ni hi j hj
  have hlen : (arena.set k v ++ [w]).length = arena.length + 1 := by simp
  rw [getq_set_append] at hi
  by_cases hik : i < arena.length
  · rw [if_pos hik] at hi
    obtain ⟨nodeI, hnodeI⟩ : ∃ nd, arena[i]? = some nd :=
      ⟨arena.get ⟨i, hik⟩, List.getElem?_eq_getElem hik⟩
    by_cases hki : k = i
    · rw [if_pos hki] at hi
      have hv : v = ni := Option.some.inj hi
      have hgd : arena.getD k default = nodeI := by
        rw [hki, List.getD_eq_getElem?_getD, hnodeI]
        rfl
      have htitle : ni.title = nodeI.title := by rw [← hv, hvt, hgd]
      have hold : j ∈ nodeI.children → j < (arena.set k v ++ [w]).length ∧
          ∀ nj, (arena.set k v ++ [w])[j]? = some nj →
            is_child_of nj.title ni.title = true := by
        intro hjold
        obtain ⟨hjl, hjp⟩ := hInv i nodeI hnodeI j hjold
        refine ⟨by omega, ?_⟩
        intro nj hnj
        rw [htitle]
        exact link_titles_transfer arena k v w hvt j hjl nodeI.title hjp nj hnj
      rcases hvc with hvc | ⟨hvc, hlink⟩
      · refine hold ?_
        rw [← hgd, ← hvc, hv]
        exact hj
      · have hj2 : j ∈ nodeI.children ∨ j = arena.length := by
          have : j ∈ nodeI.children ++ [arena.length] := by
            rw [← hgd, ← hvc, hv]
            exact hj
          rcases List.mem_append.mp this with h | h
          · exact Or.inl h
          · exact Or.inr (List.mem_singleton.mp h)
        rcases hj2 with hjold | hjnew
        · exact hold hjold
        · subst hjnew
          refine ⟨by omega, ?_⟩
          intro nj hnj
          rw [getq_set_append, if_neg (lt_irrefl _), if_pos rfl] at hnj
          have hw : w = nj := Option.some.inj hnj
          rw [← hw, ← hv]
          exact hlink
    · rw [if_neg hki] at hi
      obtain ⟨hjl, hjp⟩ := hInv i ni hi j hj
      refine ⟨by omega, ?_⟩
      exact link_titles_transfer arena k v w hvt j hjl ni.title hjp
  · rw [if_neg hik] at hi
    by_cases hie : i = arena.length
    · rw [if_pos hie] at hi
      have hw : w = ni := Option.some.inj hi
      rw [← hw, hwc] at hj
      simp at hj
    · rw [if_neg hie] at hi
      simp at hi

theorem childLinksOk_attachChild (arena : List SNode) (p : Nat) (t : String)
    (hInv : childLinksOk arena)
    (hChild : is_child_of t ((arena.getD p default).title) = true) :
    childLinksOk (attachChild arena p t) := by
  unfold attachChild
  exact childLinksOk_set_append arena p _ _ hInv rfl (Or.inr ⟨rfl, hChild⟩) rfl

theorem childLinksOk_attachSibling (arena : List SNode) (l : Nat) (t : String)
    (hInv : childLinksOk arena) :
    childLinksOk (attachSibling arena l t) := by
  unfold attachSibling
  exact childLinksOk_set_append arena l _ _ hInv rfl (Or.inl rfl) rfl

theorem childLinksOk_buildStep (st : List SNode × Nat) (title : String)
    (h : childLinksOk st.1) : childLinksOk (buildStep st title).1 := by
  unfold buildStep
  dsimp only
  by_cases h1 : is_child_of title ((st.1.getD st.2 default).title) = true
  · rw [if_pos h1]
    exact childLinksOk_attachChild st.1 st.2 title h h1
  · rw [if_neg h1]
    by_cases h2 : is_right_sibling_of title ((st.1.getD st.2 default).title) = true
    · rw [if_pos h2]
      exact childLinksOk_attachSibling st.1 st.2 title h
    · rw [if_neg h2]
      by_cases h3 : is_child_of title
          ((st.1.getD (backtrackFrom st.1 title st.1.length st.2) default).title) = true
      · rw [if_pos h3]
        exact childLinksOk_attachChild st.1 _ title h h3
      · rw [if_neg h3]
        by_cases h4 : is_right_sibling_of title
            ((st.1.getD (backtrackFrom st.1 title st.1.length st.2) default).title) = true
        · rw [if_pos h4]
          exact childLinksOk_attachSibling st.1 _ title h
        · rw [if_neg h4]
          exact h

theorem childLinksOk_fold :
    ∀ (ts : List String) (st : List SNode × Nat),
      childLinksOk st.1 → childLinksOk ((ts.foldl buildStep st)).1 := by
  intro ts
  induction ts with
  | nil => intro st h; exact h
  | cons t ts ih =>
    intro st h
    exact ih _ (childLinksOk_buildStep st t h)

theorem childLinksOk_build (titles : List String) :
    childLinksOk (build_section_tree titles) := by
  cases titles with
  | nil =>
    intro i ni hi j hj
    simp [build_section_tree] at hi
  | cons t ts =>
    unfold build_section_tree
    refine childLinksOk_fold ts ([{ title := t }], 0) ?_
    intro i ni hi j hj
    match i, hi with
    | 0, hi =>
      have : ({ title := t } : SNode) = ni := Option.some.inj hi
      rw [← this] at hj
      simp at hj
    | n + 1, hi => simp at hi

/-- C2 counterexample: in the tree built from `["1 Aa", "1.2.5 Bb"]` the
root receives `1.2.5` as a direct child although its sequence extends the
parent's by two components, refuting "extended by exactly one more
component"; and `is_child_of "1.02 Aa" "1.2 Bb"` holds although the two
integer sequences are equal (so `[1,2]` is not a strict prefix), refuting
the claimed characterisation of `is_child_of`. -/
theorem C2_child_links_cex :
    1 ∈ ((build_section_tree ["1 Aa", "1.2.5 Bb"]).getD 0 default).children ∧
    ((build_section_tree ["1 Aa", "1.2.5 Bb"]).getD 1 default).title = "1.2.5 Bb" ∧
    ((build_section_tree ["1 Aa", "1.2.5 Bb"]).getD 0 default).title = "1 Aa" ∧
    (parseDottedD "1.2.5 Bb").length = (parseDottedD "1 Aa").length + 2 ∧
    is_child_of "1.02 Aa" "1.2 Bb" = true ∧
    parseDottedD "1.02 Aa" = parseDottedD "1.2 Bb" := by
  refine ⟨by decide, by decide, by decide, by decide, by decide, by decide⟩

/-- C2 (amended): every parent-child link created by `build_section_tree`
satisfies `is_child_of`, i.e. the parent's integer sequence is a (not
necessarily one-step) prefix of the child's and the numbering strings
differ. -/
theorem C2_child_links (titles : List String) (i j : Nat) (ni nj : SNode)
    (hi : (build_section_tree titles)[i]? = some ni) (hj : j ∈ ni.children)
    (hjn : (build_section_tree titles)[j]? = some nj) :
    is_child_of nj.title ni.title = true :=
  ((childLinksOk_build titles) i ni hi j hj).2 nj hjn

theorem C2_child_links_witness :
    (build_section_tree ["1 Aa", "1.1 Bb"])[0]? =
      some ({ title := "1 Aa", children := [1] } : SNode) ∧
    1 ∈ ({ title := "1 Aa", children := [1] } : SNode).children ∧
    (build_section_tree ["1 Aa", "1.1 Bb"])[1]? =
      some ({ title := "1.1 Bb", parent := some 0 } : SNode) ∧
    is_child_of "1.1 Bb" "1 Aa" = true :=
  ⟨by decide, by decide, by decide,
    C2_child_links ["1 Aa", "1.1 Bb"] 0 1
      ({ title := "1 Aa", children := [1] } : SNode)
      ({ title := "1.1 Bb", parent := some 0 } : SNode)
      (by decide) (by decide) (by decide)⟩

/-!  Content assignment and the last sorted title (claim C3). -/

/-- A successful `search` returns a node carrying the searched title. -/
theorem searchAux_title (arena : List SNode) (t : String) :
    ∀ (fuel i j : Nat), searchAux arena t fuel i = some j →
      ∃ nd, arena[j]? = some nd ∧ nd.title = t := by
  intro fuel
  induction fuel with
  | zero =>
    intro i j h
    exact absurd h (by simp [searchAux])
  | succ fuel ih =>
    intro i j h
    simp only [searchAux] at h
    match hnd : arena[i]? with
    | none =>
      rw [hnd] at h
      exact absurd h (by simp)
    | some nd =>
      rw [hnd] at h
      simp only at h
      by_cases ht : nd.title = t
      · rw [if_pos ht] at h
        have hji := Option.some.inj h
        exact ⟨nd, hji ▸ hnd, ht⟩
      · rw [if_neg ht] at h
        match hf : nd.children.findSome? (fun c => searchAux arena t fuel c) with
        | some r =>
          rw [hf] at h
          have hr := Option.some.inj h
          obtain ⟨c, hc, hcall⟩ := List.exists_of_findSome?_eq_some hf
          exact ih c j (hr ▸ hcall)
        | none =>
          rw [hf] at h
          match hrs : nd.right_sibling with
          | none =>
            rw [hrs] at h
            exact absurd h (by simp)
          | some rs =>
            rw [hrs] at h
            exact ih rs j h

/-- Arena invariant: no node carries content (true of the freshly built
tree, before `enrich_section_chunks` assigns spans). -/
abbrev contentsNone (arena : List SNode) : Prop :=
  ∀ (i : Nat) (ni : SNode), arena[i]? = some ni → ni.content = none

theorem contentsNone_getD (arena : List SNode) (hInv : contentsNone arena) (k : Nat) :
    (arena.getD k default).content = none := by
  rw [List.getD_eq_getElem?_getD]
  match h : arena[k]? with
  | none => rfl
  | some nd => exact hInv k nd h

theorem contentsNone_set_append (arena : List SNode) (k : Nat) (v w : SNode)
    (hInv : contentsNone arena)
    (hv : v.content = (arena.getD k default).content)
    (hw : w.content = none) :
    contentsNone (arena.set k v ++ [w]) := by
  intro i ni hi
  rw [getq_set_append] at hi
  by_cases hik : i < arena.length
  · rw [if_pos hik] at hi
    by_cases hk : k = i
    · rw [if_pos hk] at hi
      have hvi := Option.some.inj hi
      rw [← hvi, hv]
      exact contentsNone_getD arena hInv k
    · rw [if_neg hk] at hi
      exact hInv i ni hi
  · rw [if_neg hik] at hi
    by_cases he : i = arena.length
    · rw [if_pos he] at hi
      have hwi := Option.some.inj hi
      rw [← hwi]
      exact hw
    · rw [if_neg he] at hi
      exact absurd hi (by simp)

theorem contentsNone_attachChild (arena : List SNode) (p : Nat) (t : String)
    (hInv : contentsNone arena) : contentsNone (attachChild arena p t) := by
  unfold attachChild
  exact contentsNone_set_append arena p _ _ hInv rfl rfl

theorem contentsNone_attachSibling (arena : List SNode) (l : Nat) (t : String)
    (hInv : contentsNone arena) : contentsNone (attachSibling arena l t) := by
  unfold attachSibling
  exact contentsNone_set_append arena l _ _ hInv rfl rfl

theorem contentsNone_buildStep (st : List SNode × Nat) (title : String)
    (h : contentsNone st.1) : contentsNone (buildStep st title).1 := by
  unfold buildStep
  dsimp only
  by_cases h1 : is_child_of title ((st.1.getD st.2 default).title) = true
  · rw [if_pos h1]
    exact contentsNone_attachChild st.1 st.2 title h
  · rw [if_neg h1]
    by_cases h2 : is_right_sibling_of title ((st.1.getD st.2 default).title) = true
    · rw [if_pos h2]
      exact contentsNone_attachSibling st.1 st.2 title h
    · rw [if_neg h2]
      by_cases h3 : is_child_of title
          ((st.1.getD (backtrackFrom st.1 title st.1.length st.2) default).title) = true
      · rw [if_pos h3]
        exact contentsNone_attachChild st.1 _ title h
      · rw [if_neg h3]
        by_cases h4 : is_right_sibling_of title
            ((st.1.getD (backtrackFrom st.1 title st.1.length st.2) default).title) = true
        · rw [if_pos h4]
          exact contentsNone_attachSibling st.1 _ title h
        · rw [if_neg h4]
          exact h

theorem contentsNone_fold :
    ∀ (ts : List String) (st : List SNode × Nat),
      contentsNone st.1 → contentsNone ((ts.foldl buildStep st)).1 := by
  intro ts
  induction ts with
  | nil => intro st h; exact h
  | cons t ts ih =>
    intro st h
    exact ih _ (contentsNone_buildStep st t h)

theorem contentsNone_build (titles : List String) :
    contentsNone (build_section_tree titles) := by
  cases titles with
  | nil =>
    intro i ni hi
    exact absurd hi (by simp [build_section_tree])
  | cons t ts =>
    unfold build_section_tree
    refine contentsNone_fold ts ([{ title := t }], 0) ?_
    intro i ni hi
    match i, hi with
    | 0, hi =>
      have := Option.some.inj hi
      rw [← this]
      rfl
    | n + 1, hi => exact absurd hi (by simp)

/-- The assignment loop touches exactly the nodes found for the first
components of its pairs: any node of the resulting arena keeps its title,
and keeps its content unless its title is one of those first components. -/
theorem assignPairs_ok (text : String) :
    ∀ (pairs : List (String × String)) (arena arena2 : List SNode),
      assignPairs text arena pairs = .ok arena2 →
      ∀ (j : Nat) (nj : SNode), arena2[j]? = some nj →
        ∃ nd, arena[j]? = some nd ∧ nj.title = nd.title ∧
          (nj.content = nd.content ∨ nj.title ∈ pairs.map Prod.fst) := by
  intro pairs
  induction pairs with
  | nil =>
    intro arena arena2 h j nj hj
    simp only [assignPairs] at h
    have he := Except.ok.inj h
    subst he
    exact ⟨nj, hj, rfl, Or.inl rfl⟩
  | cons p rest ih =>
    intro arena arena2 h j nj hj
    obtain ⟨cur, nxt⟩ := p
    simp only [assignPairs] at h
    match hs : searchArena arena cur with
    | none =>
      rw [hs] at h
      exact absurd h (by simp)
    | some i =>
      rw [hs] at h
      simp only at h
      obtain ⟨nd1, hnd1, ht1, hc1⟩ := ih _ _ h j nj hj
      rw [List.getElem?_set] at hnd1
      by_cases hij : i = j
      · rw [if_pos hij] at hnd1
        by_cases hlen : i < arena.length
        · rw [if_pos hlen] at hnd1
          have hv := Option.some.inj hnd1
          obtain ⟨nodeI, hnodeI⟩ : ∃ nd, arena[i]? = some nd :=
            ⟨arena.get ⟨i, hlen⟩, List.getElem?_eq_getElem hlen⟩
          have hgd : arena.getD i default = nodeI := by
            rw [List.getD_eq_getElem?_getD, hnodeI]
            rfl
          obtain ⟨nd2, hnd2, ht2⟩ := searchAux_title arena cur arena.length 0 i hs
          have hnode2 : nd2 = nodeI := by
            rw [hnodeI] at hnd2
            exact (Option.some.inj hnd2).symm
          have hcur : nj.title = cur := by
            rw [ht1, ← hv]
            show (arena.getD i default).title = cur
            rw [hgd]
            exact hnode2 ▸ ht2
          refine ⟨nodeI, hij ▸ hnodeI, ?_, Or.inr ?_⟩
          · rw [ht1, ← hv]
            show (arena.getD i default).title = nodeI.title
            rw [hgd]
          · simp only [List.map_cons, List.mem_cons]
            exact Or.inl hcur
        · rw [if_neg hlen] at hnd1
          exact absurd hnd1 (by simp)
      · rw [if_neg hij] at hnd1
        refine ⟨nd1, hnd1, ht1, ?_⟩
        rcases hc1 with hce | hmem
        · exact Or.inl hce
        · refine Or.inr ?_
          simp only [List.map_cons, List.mem_cons]
          exact Or.inr hmem

/-- The first components of the consecutive-pair list are exactly the
sorted titles without the last one. -/
theorem zip_tail_fst (l : List String) : (l.zip l.tail).map Prod.fst = l.dropLast := by
  induction l with
  | nil => rfl
  | cons a t ih =>
    cases t with
    | nil => rfl
    | cons b t2 =>
      show ((a, b) :: (b :: t2).zip t2).map Prod.fst = (a :: b :: t2).dropLast
      have ht : (b :: t2).zip t2 = (b :: t2).zip ((b :: t2).tail) := rfl
      rw [List.map_cons, ht, ih]
      rfl

theorem getLast_not_mem_dropLast (l : List String) (h : l ≠ []) (hnd : l.Nodup) :
    l.getLast h ∉ l.dropLast := by
  intro hmem
  have hd := List.dropLast_append_getLast h
  rw [← hd, List.nodup_append] at hnd
  exact hnd.2.2 hmem (List.mem_singleton.mpr rfl)

/-- Collecting over `xs ++ [t]` succeeds exactly when collecting over `xs`
does and `t` is found; a contentless `t`-node adds nothing to the output. -/
theorem collectChunks_snoc (arena : List SNode) :
    ∀ (xs : List String) (t : String) (out : List String),
      collectChunks arena (xs ++ [t]) = .ok out →
      ∃ i, searchArena arena t = some i ∧
        ∃ pre, collectChunks arena xs = .ok pre ∧
          (((arena.getD i default).content = none ∧ out = pre) ∨
            ∃ c, (arena.getD i default).content = some c ∧
              out = pre ++ [get_contextualised_content arena i c]) := by
  intro xs
  induction xs with
  | nil =>
    intro t out h
    rw [List.nil_append] at h
    simp only [collectChunks] at h
    match hs : searchArena arena t with
    | none =>
      rw [hs] at h
      exact absurd h (by simp)
    | some i =>
      rw [hs] at h
      simp only at h
      refine ⟨i, rfl, [], rfl, ?_⟩
      match hc : (arena.getD i default).content with
      | none =>
        rw [hc] at h
        simp only at h
        exact Or.inl ⟨rfl, (Except.ok.inj h).symm⟩
      | some c =>
        rw [hc] at h
        simp only at h
        refine Or.inr ⟨c, rfl, ?_⟩
        rw [← Except.ok.inj h]
        rfl
  | cons x xs ih =>
    intro t out h
    rw [List.cons_append] at h
    simp only [collectChunks] at h
    match hsx : searchArena arena x with
    | none =>
      rw [hsx] at h
      exact absurd h (by simp)
    | some ix =>
      rw [hsx] at h
      simp only at h
      match hcx : (arena.getD ix default).content with
      | none =>
        rw [hcx] at h
        obtain ⟨i, hs, pre, hpre, hrest⟩ := ih t out h
        refine ⟨i, hs, pre, ?_, hrest⟩
        simp only [collectChunks]
        rw [hsx]
        simp only
        rw [hcx]
        exact hpre
      | some c =>
        rw [hcx] at h
        match hcc : collectChunks arena (xs ++ [t]) with
        | .error e =>
          rw [hcc] at h
          exact absurd h (by simp)
        | .ok rest =>
          rw [hcc] at h
          simp only at h
          have hout : get_contextualised_content arena ix c :: rest = out := Except.ok.inj h
          obtain ⟨i, hs, pre, hpre, hrest⟩ := ih t rest hcc
          refine ⟨i, hs, get_contextualised_content arena ix c :: pre, ?_, ?_⟩
          · simp only [collectChunks]
            rw [hsx]
            simp only
            rw [hcx, hpre]
          · rcases hrest with ⟨hn, he⟩ | ⟨c2, hc2, he⟩
            · refine Or.inl ⟨hn, ?_⟩
              rw [← hout, he]
            · refine Or.inr ⟨c2, hc2, ?_⟩
              rw [← hout, he]
              rfl

def c3Doc : String :=
  "  1 Introduction\nalpha beta\n  1.1 Overview\ngamma delta\n  1.2 Details\nepsilon\n  2 Conclusion\nomega\n"

def c3Titles : List String := ["1 Introduction", "1.1 Overview", "1.2 Details", "2 Conclusion"]

def c3Out : List String :=
  ["In section: 1 Introduction, part 1/1:\n1 Introduction\nalpha beta\n  ",
   "In section: 1 Introduction -> 1.1 Overview, part 1/1:\n1.1 Overview\ngamma delta\n  ",
   "In section: 1 Introduction -> 1.2 Details, part 1/1:\n1.2 Details\nepsilon\n  "]

def c3DupDoc : String := "  1 Aa\n  1 Aa\n"

/-- C3 counterexample: on a document whose two extracted and validated
titles are the same string "1 Aa", the title that sorts last does receive
a content span (the empty string) and each of its two occurrences in the
sorted list contributes a chunk, so the output has two chunks; this
refutes the unrestricted claim that for every document with n >= 1
validated titles the last-sorting title receives no content span and
contributes no chunk. -/
theorem C3_enrichment_cex :
    extract_sections c3DupDoc = .ok ["1 Aa", "1 Aa"] ∧
    validate_extracted_sections ["1 Aa", "1 Aa"] = .ok ["1 Aa", "1 Aa"] ∧
    sortTitles ["1 Aa", "1 Aa"] = ["1 Aa", "1 Aa"] ∧
    enrichArena c3DupDoc ["1 Aa", "1 Aa"] = .ok [{ title := "1 Aa", content := some "" }] ∧
    searchArena [{ title := "1 Aa", content := some "" }] "1 Aa" = some 0 ∧
    enrich_section_chunks c3DupDoc =
      .ok ["In section: 1 Aa, part 1/1:\n", "In section: 1 Aa, part 1/1:\n"] :=
  ⟨rfl, rfl, rfl, rfl, rfl, rfl⟩

/-- C3 (amended): for every document whose validated titles are pairwise
distinct, a successful enrichment leaves the node of the last-sorted
title without a content span, and the output equals the chunks collected
over the sorted titles without that last one (so the last title
contributes no chunk); moreover the concrete four-title document produces
exactly the chunks for sections 1, 1.1 and 1.2 (section 2 yields none),
and a single-title document produces the empty chunk list without an
error. -/
theorem C3_enrichment :
    (∀ (text : String) (titles out : List String),
      titles ≠ [] → titles.Nodup → enrichFromTitles text titles = .ok out →
        ∃ arena, enrichArena text titles = .ok arena ∧
          (∃ i, searchArena arena ((sortTitles titles).getLastD "") = some i ∧
            (arena.getD i default).content = none) ∧
          collectChunks arena ((sortTitles titles).dropLast) = .ok out) ∧
    enrich_section_chunks c3Doc = .ok c3Out ∧
    enrich_section_chunks "  1 Aa\nbody text\n" = .ok [] := by
  refine ⟨?_, rfl, rfl⟩
  intro text titles out hne hnd hok
  have hok' : (match enrichArena text titles with
      | .error e => .error e
      | .ok arena => collectChunks arena (sortTitles titles)) = Except.ok out := hok
  match ha : enrichArena text titles with
  | .error e =>
    rw [ha] at hok'
    exact absurd hok' (by simp)
  | .ok arena =>
    rw [ha] at hok'
    simp only at hok'
    refine ⟨arena, rfl, ?_⟩
    have hperm : (sortTitles titles).Perm titles := List.perm_insertionSort _ titles
    have hsne : sortTitles titles ≠ [] := by
      intro hcon
      have hlen := hperm.length_eq
      rw [hcon] at hlen
      exact hne (List.length_eq_zero.mp hlen.symm)
    have hsnd : (sortTitles titles).Nodup := (hperm.nodup_iff).mpr hnd
    have hdecomp := List.dropLast_append_getLast hsne
    have hlastD : (sortTitles titles).getLastD "" = (sortTitles titles).getLast hsne := by
      rw [List.getLastD_eq_getLast?, List.getLast?_eq_getLast _ hsne]
      rfl
    rw [← hdecomp] at hok'
    obtain ⟨i, hs, pre, hpre, hrest⟩ := collectChunks_snoc arena _ _ _ hok'
    have ha' : assignPairs text (build_section_tree (sortTitles titles))
        ((sortTitles titles).zip (sortTitles titles).tail) = .ok arena := ha
    obtain ⟨nd2, hnd2, ht2⟩ :=
      searchAux_title arena ((sortTitles titles).getLast hsne) arena.length 0 i hs
    obtain ⟨nd0, hnd0, ht0, hc0⟩ := assignPairs_ok text _ _ _ ha' i nd2 hnd2
    have hbuildNone := contentsNone_build (sortTitles titles) i nd0 hnd0
    have hnotmem :
        nd2.title ∉ ((sortTitles titles).zip (sortTitles titles).tail).map Prod.fst := by
      rw [zip_tail_fst, ht2]
      exact getLast_not_mem_dropLast _ hsne hsnd
    have hcontent : nd2.content = none := by
      rcases hc0 with hceq | hmem
      · rw [hceq, hbuildNone]
      · exact absurd hmem hnotmem
    have hgd : arena.getD i default = nd2 := by
      rw [List.getD_eq_getElem?_getD, hnd2]
      rfl
    refine ⟨⟨i, ?_, ?_⟩, ?_⟩
    · rw [hlastD]
      exact hs
    · rw [hgd]
      exact hcontent
    · rcases hrest with ⟨_, hout⟩ | ⟨c, hc, _⟩
      · rw [hout]
        exact hpre
      · rw [hgd, hcontent] at hc
        exact absurd hc (by simp)

theorem C3_enrichment_witness :
    c3Titles ≠ [] ∧ c3Titles.Nodup ∧
    ∃ arena, enrichArena c3Doc c3Titles = .ok arena ∧
      (∃ i, searchArena arena ((sortTitles c3Titles).getLastD "") = some i ∧
        (arena.getD i default).content = none) ∧
      collectChunks arena ((sortTitles c3Titles).dropLast) = .ok c3Out :=
  ⟨by decide, by decide,
    C3_enrichment.1 c3Doc c3Titles c3Out (by decide) (by decide) (by rfl)⟩
